import Mathlib

/-!
# PaperForge retrieval core: a shallow embedding

This file embeds the retrieval and context-intelligence pipeline of the
PaperForge repository in Lean 4 and proves (or refutes) the frozen claims
about it.  Each definition is translated from the Rust source:

* `crates/search/src/retrieval/fusion.rs`  (`RRFusion::fuse`)
* `crates/search/src/retrieval/hybrid.rs`  (`HybridRetriever::retrieve`)
* `crates/search/src/citation/graph.rs`    (`CitationGraph`)
* `crates/search/src/citation/pagerank.rs` (`PageRankScorer::compute`)
* `crates/common/src/context/context_stitcher.rs` (`ContextStitcher`)
* `crates/common/src/context/query_parser.rs`     (`QueryParser`)
* `crates/common/src/context/reasoner.rs`         (`Reasoner`)

Modelling conventions:
* `f32` scores are modelled as `ℚ` (exact arithmetic; the claims under
  study are about ordering, aggregation and control flow, not rounding).
* `Uuid` is modelled as `ℕ`.
* Rust `String` is modelled as `List Char`; `len()` (UTF-8 byte length)
  is `strByteLen`, `chars()` is the list itself.
* Rust `HashMap`/`HashSet` are modelled as insertion-ordered association
  lists / lists: an entry created first is iterated first.  (The real
  iteration order is arbitrary; every ordering fact proved below about
  map iteration is therefore a fact about this deterministic model, and
  is flagged as such where it matters.)
-/

/-- Paper / chunk identifiers (`uuid::Uuid` in the source). -/
abbrev Uuid := Nat

/-- Rust `String` as a list of Unicode scalar values. -/
abbrev Str := List Char

/-- Rust `str::len()`: the UTF-8 byte length. -/
def strByteLen (s : Str) : Nat := (s.map Char.utf8Size).sum

/-- Rust `str::starts_with`. -/
def strStartsWith : Str → Str → Bool
  | _, [] => true
  | [], _ :: _ => false
  | c :: s, d :: t => c == d && strStartsWith s t

/-- Rust `str::contains` (substring containment; for valid UTF-8 the
byte-level search in the source coincides with char-level search because
UTF-8 is self-synchronizing). -/
def strContains : Str → Str → Bool
  | [], t => strStartsWith [] t
  | c :: s, t => strStartsWith (c :: s) t || strContains s t

/-- Rust `char::is_whitespace` (ASCII fragment; the inputs in this file
are ASCII). -/
def charIsWs (c : Char) : Bool := c.isWhitespace

/-- Rust `str::trim`. -/
def strTrim (s : Str) : Str :=
  ((s.dropWhile charIsWs).reverse.dropWhile charIsWs).reverse

/-- Rust `str::to_lowercase` (ASCII fragment). -/
def strLower (s : Str) : Str := s.map Char.toLower

/-- Helper for `strSplitWs`: accumulates the current word (reversed). -/
def strSplitWsAux : Str → Str → List Str
  | [], acc => if acc.isEmpty then [] else [acc.reverse]
  | c :: rest, acc =>
      if charIsWs c then
        if acc.isEmpty then strSplitWsAux rest []
        else acc.reverse :: strSplitWsAux rest []
      else strSplitWsAux rest (c :: acc)

/-- Rust `str::split_whitespace` (empty fragments skipped). -/
def strSplitWs (s : Str) : List Str := strSplitWsAux s []

/-- Rust `str::replace(pat, rep)`: replaces every non-overlapping
occurrence, scanning left to right.  The source only calls this with the
nonempty pattern `"how"`; for an empty pattern we return the input. -/
def strReplace (pat rep : Str) : Str → Str
  | [] => []
  | c :: rest =>
      if h : pat.isEmpty then c :: rest
      else if strStartsWith (c :: rest) pat then
        rep ++ strReplace pat rep ((c :: rest).drop pat.length)
      else
        c :: strReplace pat rep rest
  termination_by s => s.length
  decreasing_by
    · cases pat with
      | nil => simp [List.isEmpty] at h
      | cons p ps => simp [List.length_drop]; omega
    · simp only [List.length_cons]; omega

/-- String literal → `Str`. -/
def lit (s : String) : Str := s.data

instance instDecEqExcept {ε α : Type} [DecidableEq ε] [DecidableEq α] :
    DecidableEq (Except ε α) := fun x y =>
  match x, y with
  | .ok a, .ok b => decidable_of_iff (a = b) (by simp)
  | .error a, .error b => decidable_of_iff (a = b) (by simp)
  | .ok _, .error _ => isFalse (fun h => Except.noConfusion h)
  | .error _, .ok _ => isFalse (fun h => Except.noConfusion h)

/-! ## Retrieval data model (`crates/search/src/retrieval/mod.rs`) -/

/-- `RetrievalMode` from `retrieval/mod.rs`. -/
inductive RetrievalMode where
  | Vector
  | BM25
  | Hybrid
deriving DecidableEq, Repr

/-- `RetrievedChunk` from `retrieval/mod.rs`. -/
structure RetrievedChunk where
  chunk_id : Uuid
  paper_id : Uuid
  paper_title : Str
  content : Str
  chunk_index : Int
  score : ℚ
  retrieval_mode : RetrievalMode
deriving DecidableEq, Repr

/-- `SearchRequest` from `retrieval/mod.rs` (fields used by the hybrid
retriever; `tenant_id`, `query`, `query_embedding`, `paper_ids` are
carried by the sub-retrievers, which are parameters here). -/
structure SearchRequest where
  limit : Nat
  min_score : Option ℚ
deriving DecidableEq, Repr

/-! ## RRF fusion (`crates/search/src/retrieval/fusion.rs`) -/

/-- `RRFusion` parameters. -/
structure RRFusion where
  k : ℚ
  vector_weight : ℚ
  bm25_weight : ℚ
deriving DecidableEq, Repr

/-- `RRFusion::default()`. -/
def RRFusion.default : RRFusion := ⟨60, 6/10, 4/10⟩

/-- `RRFusion::with_weights`. -/
def RRFusion.with_weights (vw bw : ℚ) : RRFusion := ⟨60, vw, bw⟩

/-- An entry of the `chunk_map` in `RRFusion::fuse`:
`(chunk, vector_rank, bm25_rank)`. -/
abbrev FuseEntry := RetrievedChunk × Option Nat × Option Nat

/-- `HashMap::insert` on the insertion-ordered model: overwrite in place
if the key exists, else append. -/
def mapInsert (m : List (Uuid × FuseEntry)) (key : Uuid) (v : FuseEntry) :
    List (Uuid × FuseEntry) :=
  match m with
  | [] => [(key, v)]
  | (k0, v0) :: rest =>
      if k0 = key then (k0, v) :: rest
      else (k0, v0) :: mapInsert rest key v

/-- The `get_mut` update arm of the BM25 loop in `fuse`: set the
`bm25_rank` component of the existing entry, else insert a new entry. -/
def mapUpdateBm25 (m : List (Uuid × FuseEntry)) (key : Uuid) (rank : Nat)
    (c : RetrievedChunk) : List (Uuid × FuseEntry) :=
  match m with
  | [] => [(key, (c, none, some rank))]
  | (k0, (c0, vr0, _br0)) :: rest =>
      if k0 = key then (k0, (c0, vr0, some rank)) :: rest
      else (k0, (c0, vr0, _br0)) :: mapUpdateBm25 rest key rank c

/-- The vector loop of `fuse`: `for (rank, chunk) in
vector_results.into_iter().enumerate()` (`rank0` is the 0-based
enumeration index). -/
def vectorPhase (rank0 : Nat) (vector_results : List RetrievedChunk)
    (m : List (Uuid × FuseEntry)) : List (Uuid × FuseEntry) :=
  match vector_results with
  | [] => m
  | c :: rest =>
      vectorPhase (rank0 + 1) rest
        (mapInsert m c.chunk_id (c, some (rank0 + 1), none))

/-- The BM25 loop of `fuse`. -/
def bm25Phase (rank0 : Nat) (bm25_results : List RetrievedChunk)
    (m : List (Uuid × FuseEntry)) : List (Uuid × FuseEntry) :=
  match bm25_results with
  | [] => m
  | c :: rest =>
      bm25Phase (rank0 + 1) rest (mapUpdateBm25 m c.chunk_id (rank0 + 1) c)

/-- The `chunk_map` after both loops of `RRFusion::fuse` (vector results
inserted with 1-based ranks, then BM25 results). -/
def buildChunkMap (vector_results bm25_results : List RetrievedChunk) :
    List (Uuid × FuseEntry) :=
  bm25Phase 0 bm25_results (vectorPhase 0 vector_results [])

/-- `FusionResult` from `fusion.rs`. -/
structure FusionResult where
  chunk : RetrievedChunk
  vector_rank : Option Nat
  bm25_rank : Option Nat
  rrf_score : ℚ
deriving DecidableEq, Repr

/-- The per-entry RRF score computation of `fuse` (the `map` closure). -/
def entryToResult (fus : RRFusion) (e : Uuid × FuseEntry) : FusionResult :=
  let c := e.2.1
  let vector_rank := e.2.2.1
  let bm25_rank := e.2.2.2
  let vector_rrf := match vector_rank with
    | some r => fus.vector_weight / (fus.k + (r : ℚ))
    | none => 0
  let bm25_rrf := match bm25_rank with
    | some r => fus.bm25_weight / (fus.k + (r : ℚ))
    | none => 0
  let rrf_score := vector_rrf + bm25_rrf
  { chunk := { c with score := rrf_score, retrieval_mode := .Hybrid }
    vector_rank := vector_rank
    bm25_rank := bm25_rank
    rrf_score := rrf_score }

/-- The descending comparison used by `results.sort_by` in `fuse`
(`b.rrf_score.partial_cmp(&a.rrf_score)`, ties `Equal`).  Rust's sort is
stable; `List.insertionSort` with this reflexive relation is the stable
descending sort. -/
def fusionGE (a b : FusionResult) : Prop := b.rrf_score ≤ a.rrf_score

instance : DecidableRel fusionGE := fun a b =>
  inferInstanceAs (Decidable (b.rrf_score ≤ a.rrf_score))

instance : IsTotal FusionResult fusionGE :=
  ⟨fun a b => le_total b.rrf_score a.rrf_score⟩

instance : IsTrans FusionResult fusionGE :=
  ⟨fun _ _ _ h1 h2 => le_trans h2 h1⟩

/-- The final normalization pass of `fuse`: divide every score by the
first (maximal) score when it is positive. -/
def normalizeResults (rs : List FusionResult) : List FusionResult :=
  match rs.head? with
  | none => rs
  | some fr =>
      let max_score := fr.rrf_score
      if 0 < max_score then
        rs.map (fun r =>
          { r with
            chunk := { r.chunk with score := r.rrf_score / max_score }
            rrf_score := r.rrf_score / max_score })
      else rs

/-- `RRFusion::fuse`. -/
def RRFusion.fuse (fus : RRFusion)
    (vector_results bm25_results : List RetrievedChunk) (limit : Nat) :
    List FusionResult :=
  let results := (buildChunkMap vector_results bm25_results).map
    (entryToResult fus)
  let sorted := results.insertionSort fusionGE
  normalizeResults (sorted.take limit)

/-! ## Hybrid retrieval (`crates/search/src/retrieval/hybrid.rs`)

The vector and BM25 retrievers perform database I/O; here they are
parameters: functions from the (rewritten) request to an `Except`
outcome, standing for the values the `tokio::join!` produces. -/

/-- `HybridRetriever::retrieve`.  `ε` is the error type (`AppError`). -/
def hybridRetrieve {ε : Type} (fus : RRFusion)
    (vector bm25 : SearchRequest → Except ε (List RetrievedChunk))
    (request : SearchRequest) : Except ε (List RetrievedChunk) :=
  let expanded_limit := request.limit * 2
  let vector_request : SearchRequest := { limit := expanded_limit, min_score := none }
  let bm25_request : SearchRequest := { limit := expanded_limit, min_score := none }
  let vector_results := match vector vector_request with
    | .ok l => l
    | .error _ => []            -- unwrap_or_default
  let bm25_results := match bm25 bm25_request with
    | .ok l => l
    | .error _ => []            -- unwrap_or_default
  let fused := fus.fuse vector_results bm25_results request.limit
  let min_score := request.min_score.getD 0
  .ok ((fused.filter (fun r => min_score ≤ r.chunk.score)).map (fun r => r.chunk))

/-! Concrete chunks used in counterexamples. -/

/-- A minimal chunk constructor (mirrors `make_chunk` in the source's
tests). -/
def mkChunk (cid pid : Uuid) (idx : Int) (score : ℚ) (mode : RetrievalMode) :
    RetrievedChunk :=
  { chunk_id := cid, paper_id := pid, paper_title := [], content := []
    chunk_index := idx, score := score, retrieval_mode := mode }

/-! ## Citation graph (`crates/search/src/citation/graph.rs`) -/

/-- Generic insertion-ordered multimap push:
`map.entry(key).or_default().push(v)`. -/
def assocPush {β : Type} (m : List (Uuid × List β)) (key : Uuid) (v : β) :
    List (Uuid × List β) :=
  match m with
  | [] => [(key, [v])]
  | (k0, vs) :: rest =>
      if k0 = key then (k0, vs ++ [v]) :: rest
      else (k0, vs) :: assocPush rest key v

/-- Lookup in an insertion-ordered multimap, defaulting to `[]`
(`map.get(&k).map(|v| v.as_slice()).unwrap_or(&[])`). -/
def assocGet {β : Type} (m : List (Uuid × List β)) (key : Uuid) : List β :=
  match m with
  | [] => []
  | (k0, vs) :: rest => if k0 = key then vs else assocGet rest key

/-- `HashSet::insert` on the insertion-ordered model. -/
def setInsert (s : List Uuid) (x : Uuid) : List Uuid :=
  if x ∈ s then s else s ++ [x]

/-- `CitationGraph` (the `titles` map is irrelevant to the claims but kept
for fidelity). -/
structure CitationGraph where
  outgoing : List (Uuid × List Uuid)
  incoming : List (Uuid × List Uuid)
  nodes : List Uuid
  titles : List (Uuid × Str)
deriving DecidableEq, Repr

/-- `CitationGraph::new()`. -/
def CitationGraph.new : CitationGraph := ⟨[], [], [], []⟩

/-- `CitationGraph::add_edge`: note there is no self-edge check and no
dedup. -/
def CitationGraph.add_edge (g : CitationGraph) (citing cited : Uuid) :
    CitationGraph :=
  { g with
    nodes := setInsert (setInsert g.nodes citing) cited
    outgoing := assocPush g.outgoing citing cited
    incoming := assocPush g.incoming cited citing }

/-- A graph built from an edge list, as the load loop in `load_from_db`
does (one `add_edge` per row, in row order). -/
def buildGraph (es : List (Uuid × Uuid)) : CitationGraph :=
  es.foldl (fun g e => g.add_edge e.1 e.2) CitationGraph.new

/-- `CitationGraph::get_references` (papers cited by `paper_id`). -/
def CitationGraph.get_references (g : CitationGraph) (paper_id : Uuid) :
    List Uuid := assocGet g.outgoing paper_id

/-- `CitationGraph::get_citations` (papers citing `paper_id`). -/
def CitationGraph.get_citations (g : CitationGraph) (paper_id : Uuid) :
    List Uuid := assocGet g.incoming paper_id

/-- `CitationGraph::reference_count`. -/
def CitationGraph.reference_count (g : CitationGraph) (paper_id : Uuid) :
    Nat := (assocGet g.outgoing paper_id).length

/-- `CitationGraph::citation_count`. -/
def CitationGraph.citation_count (g : CitationGraph) (paper_id : Uuid) :
    Nat := (assocGet g.incoming paper_id).length

/-- `TraversalDirection`. -/
inductive TraversalDirection where
  | Forward
  | Backward
  | Both
deriving DecidableEq, Repr

/-- The neighbour list followed by `traverse`.  In the source, the `Both`
arm builds a combined vector but the `match` expression then evaluates to
the empty slice `&[]` (the combined vector is discarded), so no
neighbours are followed in that direction. -/
def traverseNeighbors (g : CitationGraph) (dir : TraversalDirection)
    (current : Uuid) : List Uuid :=
  match dir with
  | .Forward => g.get_references current
  | .Backward => g.get_citations current
  | .Both => []

/-- The loop of `CitationGraph::traverse`.  The source pops from the END
of a `Vec` (`queue.pop()`), i.e. the work list is a LIFO stack; here the
stack is modelled head-first (the head is the element `pop` returns), so
pushing neighbours `n1 … nk` prepends them in reverse.  `fuel` bounds the
number of loop iterations; `traverse` passes a fuel that exceeds the
largest possible number of pops (see `traverse`). -/
def traverseLoop (g : CitationGraph) (start : Uuid) (depth : Nat)
    (dir : TraversalDirection) :
    Nat → List Uuid → List (Uuid × Nat) → List (Uuid × Nat)
  | 0, _, _ => []
  | _ + 1, _, [] => []
  | fuel + 1, visited, (current, current_depth) :: rest =>
      if depth < current_depth ∨ current ∈ visited then
        traverseLoop g start depth dir fuel visited rest
      else
        let visited' := current :: visited
        let res := if current ≠ start then [(current, current_depth)] else []
        let pushed :=
          if current_depth < depth then
            (((traverseNeighbors g dir current).filter
                (fun n => n ∉ visited')).map
              (fun n => (n, current_depth + 1))).reverse
          else []
        res ++ traverseLoop g start depth dir fuel visited' (pushed ++ rest)

/-- Total size of the adjacency structure (an upper bound on the number
of neighbours examined at any single visit). -/
def CitationGraph.adjSize (g : CitationGraph) : Nat :=
  (g.outgoing.map (fun p => p.2.length)).sum +
  (g.incoming.map (fun p => p.2.length)).sum

/-- Every id occurring anywhere in the graph (an upper bound on the set
of nodes a traversal can visit). -/
def CitationGraph.idCount (g : CitationGraph) : Nat :=
  g.nodes.length + g.outgoing.length + g.incoming.length + g.adjSize

/-- `CitationGraph::traverse`.  The Rust loop terminates because each
iteration either discards a queue entry or visits a fresh node, and each
visit pushes at most `adjSize` entries; `(idCount + 2) * (adjSize + 1)`
strictly exceeds the total number of pops, so the fuel never runs out
and the model computes the same list the Rust loop does. -/
def CitationGraph.traverse (g : CitationGraph) (start : Uuid) (depth : Nat)
    (dir : TraversalDirection) : List (Uuid × Nat) :=
  traverseLoop g start depth dir ((g.idCount + 2) * (g.adjSize + 1))
    [] [(start, 0)]

/-! ## PageRank (`crates/search/src/citation/pagerank.rs`) -/

/-- `PageRankConfig`. -/
structure PageRankConfig where
  damping : ℚ
  max_iterations : Nat
  epsilon : ℚ
deriving DecidableEq, Repr

/-- `PageRankConfig::default()`. -/
def PageRankConfig.default : PageRankConfig := ⟨85/100, 100, 1/1000000⟩

/-- Score lookup: `scores.get(&id).copied().unwrap_or(0.0)`. -/
def scoreGet (scores : List (Uuid × ℚ)) (id : Uuid) : ℚ :=
  match scores with
  | [] => 0
  | (k, v) :: rest => if k = id then v else scoreGet rest id

/-- Out-count lookup: `out_counts.get(&citing).unwrap_or(&1)`. -/
def outGet (out_counts : List (Uuid × Nat)) (id : Uuid) : Nat :=
  match out_counts with
  | [] => 1
  | (k, v) :: rest => if k = id then v else outGet rest id

/-- The `out_counts` map precomputed by `compute`. -/
def pagerankOutCounts (g : CitationGraph) : List (Uuid × Nat) :=
  g.nodes.map (fun id => (id, g.reference_count id))

/-- One iteration of the power loop of `PageRankScorer::compute`: for
every node, `new_score = teleport + damping * Σ score(citing)/out(citing)`.
There is no dangling-mass redistribution term. -/
def pagerankStep (g : CitationGraph) (damping : ℚ)
    (scores : List (Uuid × ℚ)) : List (Uuid × ℚ) :=
  let n : ℚ := (g.nodes.length : ℚ)
  let teleport := (1 - damping) / n
  let out_counts := pagerankOutCounts g
  g.nodes.map (fun node =>
    let citation_sum : ℚ :=
      ((g.get_citations node).map (fun citing =>
        scoreGet scores citing / (outGet out_counts citing : ℚ))).sum
    (node, teleport + damping * citation_sum))

/-- The max per-node absolute change between two score maps, as computed
inside the loop (`max_diff`). -/
def pagerankMaxDiff (g : CitationGraph) (old new_scores : List (Uuid × ℚ)) : ℚ :=
  g.nodes.foldl (fun acc node =>
    max acc |scoreGet new_scores node - scoreGet old node|) 0

/-- The iteration loop of `compute` (`for _ in 0..max_iterations`, with
the `max_diff < epsilon` early exit). -/
def pagerankIterate (g : CitationGraph) (cfg : PageRankConfig) :
    Nat → List (Uuid × ℚ) → List (Uuid × ℚ)
  | 0, scores => scores
  | iters + 1, scores =>
      let new_scores := pagerankStep g cfg.damping scores
      if pagerankMaxDiff g scores new_scores < cfg.epsilon then new_scores
      else pagerankIterate g cfg iters new_scores

/-- `PageRankScorer::compute`: initialize to `1/N`, iterate, then divide
by the maximum score if positive. -/
def pagerankCompute (g : CitationGraph) (cfg : PageRankConfig) :
    List (Uuid × ℚ) :=
  if g.nodes.length = 0 then []
  else
    let initial : List (Uuid × ℚ) :=
      g.nodes.map (fun id => (id, 1 / (g.nodes.length : ℚ)))
    let scores := pagerankIterate g cfg cfg.max_iterations initial
    let max_score := (scores.map (fun p => p.2)).foldl max 0
    if 0 < max_score then
      scores.map (fun p => (p.1, p.2 / max_score))
    else scores

/-- Total mass of a score map over the graph's node list. -/
def scoreSum (scores : List (Uuid × ℚ)) : ℚ := (scores.map (fun p => p.2)).sum

/-! ## Context stitcher (`crates/common/src/context/context_stitcher.rs`) -/

/-- Rust byte slicing `&s[..n]` modelled on char lists: the longest char
prefix of total UTF-8 size ≤ `n`.  (The source only slices at positions
produced by `len()` arithmetic; on a char boundary this is exactly the
byte prefix, and off a boundary the Rust code would panic.) -/
def strByteTake (n : Nat) : Str → Str
  | [] => []
  | c :: rest =>
      if c.utf8Size ≤ n then c :: strByteTake (n - c.utf8Size) rest else []

/-- Rust byte slicing `&s[n..]`, same convention as `strByteTake`. -/
def strByteDrop (n : Nat) : Str → Str
  | [] => []
  | c :: rest =>
      if c.utf8Size ≤ n ∧ 0 < n then strByteDrop (n - c.utf8Size) rest
      else c :: rest

/-- `ContextWindow` from `context_stitcher.rs`. -/
structure ContextWindow where
  paper_id : Uuid
  paper_title : Str
  content : Str
  chunk_range : Int × Int
  relevance_score : ℚ
  token_count : Nat
deriving DecidableEq, Repr

/-- `ContextStitcherConfig`. -/
structure ContextStitcherConfig where
  max_tokens : Nat
  max_windows : Nat
  stitch_overlap : Nat
  min_chunk_score : ℚ
deriving DecidableEq, Repr

/-- `ContextStitcherConfig::default()`. -/
def ContextStitcherConfig.default : ContextStitcherConfig :=
  ⟨4000, 5, 100, 3/10⟩

/-- `ChunkInput` from `context_stitcher.rs`. -/
structure ChunkInput where
  chunk_id : Uuid
  paper_id : Uuid
  paper_title : Str
  content : Str
  chunk_index : Int
  score : ℚ
deriving DecidableEq, Repr

/-- The ascending `(paper_id, chunk_index)` comparison of the first sort
in `stitch` (`sort_by` with `cmp().then_with(cmp())`; stable). -/
def chunkLexLE (a b : ChunkInput) : Prop :=
  a.paper_id < b.paper_id ∨
    (a.paper_id = b.paper_id ∧ a.chunk_index ≤ b.chunk_index)

instance : DecidableRel chunkLexLE := fun a b =>
  inferInstanceAs (Decidable (_ ∨ _))

instance : IsTotal ChunkInput chunkLexLE := by
  constructor
  intro a b
  rcases lt_trichotomy a.paper_id b.paper_id with h | h | h
  · exact Or.inl (Or.inl h)
  · rcases le_total a.chunk_index b.chunk_index with h2 | h2
    · exact Or.inl (Or.inr ⟨h, h2⟩)
    · exact Or.inr (Or.inr ⟨h.symm, h2⟩)
  · exact Or.inr (Or.inl h)

instance : IsTrans ChunkInput chunkLexLE := by
  constructor
  intro a b c hab hbc
  rcases hab with h1 | ⟨e1, i1⟩
  · rcases hbc with h2 | ⟨e2, _⟩
    · exact Or.inl (h1.trans h2)
    · exact Or.inl (e2 ▸ h1)
  · rcases hbc with h2 | ⟨e2, i2⟩
    · exact Or.inl (e1 ▸ h2)
    · exact Or.inr ⟨e1.trans e2, i1.trans i2⟩

/-- The ascending `chunk_index` comparison of `create_window`'s
`sort_by_key` (stable). -/
def chunkIdxLE (a b : ChunkInput) : Prop := a.chunk_index ≤ b.chunk_index

instance : DecidableRel chunkIdxLE := fun a b =>
  inferInstanceAs (Decidable (a.chunk_index ≤ b.chunk_index))

instance : IsTotal ChunkInput chunkIdxLE :=
  ⟨fun a b => le_total a.chunk_index b.chunk_index⟩

instance : IsTrans ChunkInput chunkIdxLE :=
  ⟨fun _ _ _ h1 h2 => le_trans h1 h2⟩

/-- The descending `relevance_score` comparison of the final window sort
in `stitch` (stable). -/
def windowGE (a b : ContextWindow) : Prop :=
  b.relevance_score ≤ a.relevance_score

instance : DecidableRel windowGE := fun a b =>
  inferInstanceAs (Decidable (b.relevance_score ≤ a.relevance_score))

instance : IsTotal ContextWindow windowGE :=
  ⟨fun a b => le_total b.relevance_score a.relevance_score⟩

instance : IsTrans ContextWindow windowGE :=
  ⟨fun _ _ _ h1 h2 => le_trans h2 h1⟩

/-- `ContextStitcher::estimate_tokens`: `text.len() / 4` (bytes). -/
def estimateTokens (s : Str) : Nat := strByteLen s / 4

/-- The body of the stitch loop in `ContextStitcher::stitch_chunks` for
one non-first chunk: overlap detection against the accumulated text. -/
def stitchStep (overlap : Nat) (result : Str) (c : ChunkInput) : Str :=
  let prev_end :=
    if overlap < strByteLen result
    then strByteDrop (strByteLen result - overlap) result
    else result
  let chunk_start :=
    if overlap < strByteLen c.content
    then strByteTake overlap c.content
    else c.content
  if strContains prev_end chunk_start then
    let overlap_len := strByteLen chunk_start
    if overlap_len < strByteLen c.content
    then result ++ strByteDrop overlap_len c.content
    else result
  else
    result ++ lit "\n\n" ++ c.content

/-- `ContextStitcher::stitch_chunks`. -/
def stitchChunks (overlap : Nat) (chunks : List ChunkInput) : Str :=
  match chunks with
  | [] => []
  | [c] => c.content
  | c :: rest => rest.foldl (stitchStep overlap) c.content

/-- `ContextStitcher::create_window`. -/
def createWindow (cfg : ContextStitcherConfig) (paper_id : Uuid)
    (chunks : List ChunkInput) : ContextWindow :=
  let chunks := chunks.insertionSort chunkIdxLE
  let paper_title := ((chunks.head?).map (fun c => c.paper_title)).getD []
  let relevance_score : ℚ :=
    if chunks.isEmpty then 0
    else ((chunks.map (fun c => c.score)).sum) / (chunks.length : ℚ)
  let chunk_start := ((chunks.head?).map (fun c => c.chunk_index)).getD 0
  let chunk_end := ((chunks.getLast?).map (fun c => c.chunk_index)).getD 0
  let content := stitchChunks cfg.stitch_overlap chunks
  { paper_id := paper_id
    paper_title := paper_title
    content := content
    chunk_range := (chunk_start, chunk_end)
    relevance_score := relevance_score
    token_count := estimateTokens content }

/-- `ContextStitcher::trim_window`: NOTE the source compares the BYTE
length (`content.len()`) against a CHAR budget (`chars().take(n)`),
which is the mismatch exercised by claim C4. -/
def trimWindow (w : ContextWindow) (max_tokens : Nat) : ContextWindow :=
  let estimated_chars := max_tokens * 4
  let content :=
    if estimated_chars < strByteLen w.content
    then w.content.take estimated_chars
    else w.content
  { w with content := content, token_count := estimateTokens content }

/-- The window-assembly loop of `ContextStitcher::stitch` (iterating the
paper groups; `windows` and `total_tokens` are the loop accumulators). -/
def stitchLoop (cfg : ContextStitcherConfig) :
    List (Uuid × List ChunkInput) → List ContextWindow → Nat →
    List ContextWindow
  | [], windows, _ => windows
  | (pid, pcs) :: rest, windows, total_tokens =>
      if cfg.max_windows ≤ windows.length then windows
      else
        let w := createWindow cfg pid pcs
        if cfg.max_tokens < total_tokens + w.token_count then
          let remaining := cfg.max_tokens - total_tokens
          if 500 < remaining then windows ++ [trimWindow w remaining]
          else windows
        else stitchLoop cfg rest (windows ++ [w]) (total_tokens + w.token_count)

/-- The windows component of `ContextStitcher::stitch`.  (The
`detect_cross_references` pass reads the windows but does not modify
them, and no claim concerns the `CrossReference` list, so it is not
modelled.)  Groups are iterated in the insertion order of the model map,
i.e. first-appearance order of the `(paper_id, chunk_index)`-sorted
chunk list — ascending `paper_id`. -/
def stitchWindows (cfg : ContextStitcherConfig) (chunks : List ChunkInput) :
    List ContextWindow :=
  let chunks := chunks.filter (fun c => cfg.min_chunk_score ≤ c.score)
  let chunks := chunks.insertionSort chunkLexLE
  let paper_groups := chunks.foldl (fun m c => assocPush m c.paper_id c) []
  let windows := stitchLoop cfg paper_groups [] 0
  windows.insertionSort windowGE

/-! ## Query parser (`crates/common/src/context/query_parser.rs`) -/

/-- `QueryIntent`. -/
inductive QueryIntent where
  | Factual
  | Comparison
  | Exploratory
  | Procedural
  | Survey
  | General
deriving DecidableEq, Repr

/-- `EntityType`. -/
inductive EntityType where
  | Concept
  | Author
  | Method
  | Dataset
  | Venue
  | Temporal
  | Term
deriving DecidableEq, Repr

/-- `Entity` (the `span` field is always `None` in the source). -/
structure Entity where
  text : Str
  entity_type : EntityType
  confidence : ℚ
  span : Option (Nat × Nat)
deriving DecidableEq, Repr

/-- `QueryParserConfig`. -/
structure QueryParserConfig where
  enable_expansion : Bool
  max_expansions : Nat
  min_entity_confidence : ℚ
  use_llm_fallback : Bool
deriving DecidableEq, Repr

/-- `QueryParserConfig::default()`. -/
def QueryParserConfig.default : QueryParserConfig := ⟨true, 5, 6/10, true⟩

/-- `QueryUnderstanding`. -/
structure QueryUnderstanding where
  original_query : Str
  intent : QueryIntent
  entities : List Entity
  expanded_terms : List Str
  confidence : ℚ
deriving DecidableEq, Repr

/-- `QueryParser::load_stop_words`. -/
def stopWords : List Str :=
  [lit "a", lit "an", lit "the", lit "is", lit "are", lit "was", lit "were",
   lit "be", lit "been", lit "in", lit "on", lit "at", lit "to", lit "for",
   lit "of", lit "with", lit "by", lit "from", lit "and", lit "or",
   lit "but", lit "not", lit "this", lit "that", lit "these", lit "those",
   lit "it", lit "its", lit "as", lit "do", lit "does", lit "did",
   lit "has", lit "have", lit "had", lit "can", lit "could", lit "will",
   lit "would", lit "should", lit "may", lit "might"]

/-- `QueryParser::is_stop_word`. -/
def isStopWord (w : Str) : Bool := stopWords.contains (strLower w)

/-- The method keyword table of `QueryParser::is_method_keyword`. -/
def methodKeywords : List Str :=
  [lit "algorithm", lit "model", lit "network", lit "transformer",
   lit "cnn", lit "rnn", lit "lstm", lit "bert", lit "gpt",
   lit "attention", lit "embedding", lit "classifier", lit "regression",
   lit "clustering", lit "detection", lit "segmentation"]

/-- `QueryParser::is_method_keyword`. -/
def isMethodKeyword (w : Str) : Bool := methodKeywords.contains (strLower w)

/-- `word.parse::<i32>()` as used by `is_temporal`: optional sign, at
least one digit, nothing else.  (Overflowing literals fail to parse in
Rust; here they parse to a large integer which equally fails the
`(1900..=2100)` range test, so the outcome agrees.) -/
def parseIntStr (w : Str) : Option Int :=
  let core : Str → Option Nat := fun ds =>
    if ds.isEmpty ∨ ¬ ds.all Char.isDigit then none
    else some (ds.foldl (fun acc c => acc * 10 + (c.toNat - 48)) 0)
  match w with
  | '-' :: rest => (core rest).map (fun n => -(n : Int))
  | '+' :: rest => (core rest).map (fun n => (n : Int))
  | _ => (core w).map (fun n => (n : Int))

/-- The temporal term table of `QueryParser::is_temporal`. -/
def temporalTerms : List Str :=
  [lit "recent", lit "latest", lit "new", lit "early", lit "current"]

/-- `QueryParser::is_temporal`. -/
def isTemporal (w : Str) : Bool :=
  match parseIntStr w with
  | some year => decide (1900 ≤ year ∧ year ≤ 2100)
  | none => temporalTerms.contains (strLower w)

/-- The known-concept bigram table of `QueryParser::is_known_concept`. -/
def knownConcepts : List Str :=
  [lit "machine learning", lit "deep learning", lit "neural network",
   lit "natural language", lit "computer vision",
   lit "reinforcement learning", lit "transfer learning",
   lit "attention mechanism", lit "language model",
   lit "knowledge graph", lit "graph neural", lit "generative model"]

/-- `QueryParser::is_known_concept`. -/
def isKnownConcept (bigram : Str) : Bool :=
  knownConcepts.contains (strLower bigram)

/-- `QueryParser::detect_intent` (first match wins, in source order). -/
def detectIntent (query : Str) : QueryIntent :=
  let q := strLower query
  if strContains q (lit " vs ") || strContains q (lit " versus ") ||
     strContains q (lit "compare") || strContains q (lit "difference between")
  then .Comparison
  else if strStartsWith q (lit "how to") || strStartsWith q (lit "how do") ||
     strContains q (lit "step by step") || strContains q (lit "implement")
  then .Procedural
  else if strContains q (lit "state of the art") || strContains q (lit "survey") ||
     strContains q (lit "review of") || strContains q (lit "overview")
  then .Survey
  else if strStartsWith q (lit "what is") || strStartsWith q (lit "who is") ||
     strStartsWith q (lit "when") || strStartsWith q (lit "define")
  then .Factual
  else if strStartsWith q (lit "why") || strStartsWith q (lit "explain") ||
     strContains q (lit "understand")
  then .Exploratory
  else .General

/-- The index loop of `QueryParser::extract_entities`, written as
recursion on the word list (the `i += 2; continue` of the bigram branch
skips the next word; the other branches advance by one). -/
def extractLoop : List Str → List Entity
  | [] => []
  | [word] =>
      if isStopWord word then []
      else
        (if isMethodKeyword word
         then [⟨word, .Method, 7/10, none⟩] else []) ++
        (if isTemporal word
         then [⟨word, .Temporal, 9/10, none⟩] else []) ++
        (if 3 < strByteLen word ∧ ¬ isStopWord word
         then [⟨word, .Term, 1/2, none⟩] else [])
  | word :: next :: rest2 =>
      if isStopWord word then extractLoop (next :: rest2)
      else
        let methodPart : List Entity :=
          if isMethodKeyword word
          then [⟨word, .Method, 7/10, none⟩] else []
        let temporalPart : List Entity :=
          if isTemporal word
          then [⟨word, .Temporal, 9/10, none⟩] else []
        let termPart : List Entity :=
          if 3 < strByteLen word ∧ ¬ isStopWord word
          then [⟨word, .Term, 1/2, none⟩] else []
        let bigram := word ++ [' '] ++ next
        if isKnownConcept bigram then
          methodPart ++ temporalPart ++ [⟨bigram, .Concept, 85/100, none⟩]
            ++ extractLoop rest2
        else
          methodPart ++ temporalPart ++ termPart ++ extractLoop (next :: rest2)

/-- `QueryParser::extract_entities` (scan, then filter by the configured
minimum confidence). -/
def extractEntities (cfg : QueryParserConfig) (query : Str) : List Entity :=
  (extractLoop (strSplitWs query)).filter
    (fun e => cfg.min_entity_confidence ≤ e.confidence)

/-- `QueryParser::load_default_synonyms` (insertion order of the source). -/
def defaultSynonyms : List (Str × List Str) :=
  [(lit "ml", [lit "machine learning"]),
   (lit "nlp", [lit "natural language processing"]),
   (lit "cv", [lit "computer vision"]),
   (lit "dl", [lit "deep learning"]),
   (lit "llm", [lit "large language model"]),
   (lit "rl", [lit "reinforcement learning"]),
   (lit "gan", [lit "generative adversarial network"]),
   (lit "vae", [lit "variational autoencoder"])]

/-- Synonym lookup (`self.synonyms.get(&word.to_lowercase())`). -/
def synonymsGet (w : Str) : Option (List Str) :=
  (defaultSynonyms.find? (fun p => p.1 = strLower w)).map (fun p => p.2)

/-- `QueryParser::expand_query`. -/
def expandQuery (cfg : QueryParserConfig) (query : Str) : List Str :=
  let expansions := (strSplitWs query).foldl (fun acc w =>
    match synonymsGet w with
    | some syns => (syns.take cfg.max_expansions).foldl
        (fun acc2 syn => if syn ∈ acc2 then acc2 else acc2 ++ [syn]) acc
    | none => acc) []
  expansions.take cfg.max_expansions

/-- `QueryParser::calculate_confidence`. -/
def calculateConfidence (intent : QueryIntent) (entities : List Entity) : ℚ :=
  let intent_conf : ℚ := match intent with
    | .General => 1/2
    | _ => 8/10
  let entity_conf : ℚ :=
    if entities.isEmpty then 4/10
    else ((entities.map (fun e => e.confidence)).sum) / (entities.length : ℚ)
  (intent_conf + entity_conf) / 2

/-- `QueryParser::parse`.  `ε` is the error type (`AppError`); note the
body never produces an error — there is no empty-query check. -/
def queryParse {ε : Type} (cfg : QueryParserConfig) (query : Str) :
    Except ε QueryUnderstanding :=
  let query := strLower (strTrim query)
  let intent := detectIntent query
  let entities := extractEntities cfg query
  let expanded_terms :=
    if cfg.enable_expansion then expandQuery cfg query else []
  let confidence := calculateConfidence intent entities
  .ok { original_query := query
        intent := intent
        entities := entities
        expanded_terms := expanded_terms
        confidence := confidence }

/-! ## Multi-hop reasoner (`crates/common/src/context/reasoner.rs`) -/

/-- `ReasoningHop`. -/
structure ReasoningHop where
  query : Str
  hop_number : Nat
  facts : List Str
  docs_considered : Nat
  next_query : Option Str
  rationale : Option Str
  confidence : ℚ
deriving DecidableEq, Repr

/-- `ReasoningChain`. -/
structure ReasoningChain where
  original_query : Str
  hops : List ReasoningHop
  all_facts : List Str
  confidence : ℚ
  hop_count : Nat
deriving DecidableEq, Repr

/-- `ReasonerConfig`. -/
structure ReasonerConfig where
  max_hops : Nat
  min_confidence : ℚ
  max_facts_per_hop : Nat
  use_llm : Bool
deriving DecidableEq, Repr

/-- `ReasonerConfig::default()`. -/
def ReasonerConfig.default : ReasonerConfig := ⟨3, 1/2, 5, true⟩

/-- `ReasonerContext`. -/
structure ReasonerContext where
  content : Str
  source : Str
  score : ℚ
deriving DecidableEq, Repr

/-- Helper for `splitSentences` (the accumulator holds the current
sentence reversed). -/
def splitSentAux : Str → Str → List Str
  | [], current =>
      let t := strTrim current.reverse
      if t.isEmpty then [] else [t]
  | c :: rest, current =>
      if c = '.' ∨ c = '?' ∨ c = '!' then
        let t := strTrim (c :: current).reverse
        (if t.isEmpty then [] else [t]) ++ splitSentAux rest []
      else splitSentAux rest (c :: current)

/-- `Reasoner::split_sentences`. -/
def splitSentences (text : Str) : List Str := splitSentAux text []

/-- First-occurrence deduplication (a `HashSet` used only through
membership counts). -/
def listDedup : List Str → List Str
  | [] => []
  | w :: rest => w :: (listDedup rest).filter (fun x => x ≠ w)

/-- The distinct lowercased query words of length > 3 used by
`extract_facts` (`query_words` is a `HashSet`; only its cardinality
under containment-filtering matters, so any duplicate-free listing is a
faithful model). -/
def queryWords (query : Str) : List Str :=
  listDedup ((strSplitWs (strLower query)).filter (fun w => 3 < strByteLen w))

/-- The per-sentence relevance test of `extract_facts`: at least two
distinct query words occur in the lowercased sentence, and the byte
length is in (20, 500). -/
def factFilter (qws : List Str) (sentence : Str) : Bool :=
  let sl := strLower sentence
  2 ≤ (qws.filter (fun w => strContains sl w)).length ∧
    20 < strByteLen sentence ∧ strByteLen sentence < 500

/-- Ascending byte-length comparison for the fact sort (`sort_by_key`,
stable). -/
def factLenLE (a b : Str) : Prop := strByteLen a ≤ strByteLen b

instance : DecidableRel factLenLE := fun a b =>
  inferInstanceAs (Decidable (strByteLen a ≤ strByteLen b))

instance : IsTotal Str factLenLE :=
  ⟨fun a b => Nat.le_total (strByteLen a) (strByteLen b)⟩

instance : IsTrans Str factLenLE :=
  ⟨fun _ _ _ h1 h2 => Nat.le_trans h1 h2⟩

/-- `Reasoner::extract_facts`. -/
def extractFacts (cfg : ReasonerConfig) (contexts : List ReasonerContext)
    (query : Str) : List Str :=
  let qws := queryWords query
  let facts := contexts.foldl (fun facts ctx =>
    (splitSentences ctx.content).foldl (fun facts sentence =>
      if factFilter qws sentence then
        let fact := strTrim sentence
        if fact ∈ facts then facts else facts ++ [fact]
      else facts) facts) []
  (facts.insertionSort factLenLE).take (cfg.max_facts_per_hop * 2)

/-- The lazy `filter(|f| seen_facts.insert(f)).take(n)` pipeline of
`reason`: elements are examined only until `n` pass the filter, and the
seen-set is updated exactly for the examined elements.  Returns the kept
facts and the updated seen-set. -/
def dedupTake (seen : List Str) (budget : Nat) :
    List Str → List Str × List Str
  | [] => ([], seen)
  | f :: rest =>
      if budget = 0 then ([], seen)
      else if f ∈ seen then dedupTake seen budget rest
      else
        let out := dedupTake (seen ++ [f]) (budget - 1) rest
        (f :: out.1, out.2)

/-- `Reasoner::extract_potential_concepts`. -/
def extractPotentialConcepts (text original_query : Str) : List Str :=
  let original_words := listDedup (strSplitWs (strLower original_query))
  let concepts := (strSplitWs text).foldl (fun concepts word =>
    let clean := word.filter Char.isAlphanum
    if 4 < strByteLen clean ∧
        strLower clean ∉ original_words ∧
        ((clean.head?.map Char.isUpper).getD false) = true then
      if clean ∈ concepts then concepts else concepts ++ [clean]
    else concepts) []
  concepts.take 3

/-- `Reasoner::generate_next_query`. -/
def generateNextQuery (current_query : Str) (facts : List Str) :
    Option Str × Option Str :=
  if facts.isEmpty then
    if strContains current_query (lit "how") then
      (some (strReplace (lit "how") (lit "methods for") current_query),
       some (lit "Rephrasing to find methods"))
    else (none, none)
  else
    let all_facts_text := List.intercalate [' '] facts
    let potential_concepts := extractPotentialConcepts all_facts_text current_query
    match potential_concepts.head? with
    | some concept =>
        (some (current_query ++ [' '] ++ concept),
         some (lit "Exploring related concept: " ++ concept))
    | none => (none, none)

/-- `Reasoner::calculate_hop_confidence`.  NOTE the early return `0.3`
when either list is empty — in that case the mean formula is NOT used. -/
def calcHopConfidence (cfg : ReasonerConfig)
    (contexts : List ReasonerContext) (facts : List Str) : ℚ :=
  if contexts.isEmpty ∨ facts.isEmpty then 3/10
  else
    let avg_score := ((contexts.map (fun c => c.score)).sum) / (contexts.length : ℚ)
    let fact_score := min ((facts.length : ℚ) / (cfg.max_facts_per_hop : ℚ)) 1
    (avg_score + fact_score) / 2

/-- The hop loop of `Reasoner::reason` (`for hop_num in 1..=max_hops`
with its three `break`s and the `?` on `search_fn`).  The first argument
is the number of remaining hops (`max_hops + 1 - hop_num`). -/
def reasonLoop {ε : Type} (cfg : ReasonerConfig)
    (search_fn : Str → Except ε (List ReasonerContext)) :
    Nat → Nat → Str → List Str → List ReasoningHop → List Str →
    Except ε (List ReasoningHop × List Str)
  | 0, _, _, _, hops, all_facts => .ok (hops, all_facts)
  | remaining + 1, hop_num, current_query, seen_facts, hops, all_facts =>
      match search_fn current_query with
      | .error e => .error e
      | .ok contexts =>
          if contexts.isEmpty then .ok (hops, all_facts)
          else
            let hop_facts := extractFacts cfg contexts current_query
            let nf := dedupTake seen_facts cfg.max_facts_per_hop hop_facts
            let new_facts := nf.1
            let nq :=
              if hop_num < cfg.max_hops
              then generateNextQuery current_query new_facts
              else (none, none)
            let confidence := calcHopConfidence cfg contexts new_facts
            let hop : ReasoningHop :=
              { query := current_query
                hop_number := hop_num
                facts := new_facts
                docs_considered := contexts.length
                next_query := nq.1
                rationale := nq.2
                confidence := confidence }
            let all_facts' := all_facts ++ new_facts
            let hops' := hops ++ [hop]
            if confidence < cfg.min_confidence then .ok (hops', all_facts')
            else
              match nq.1 with
              | some q =>
                  reasonLoop cfg search_fn remaining (hop_num + 1) q nf.2
                    hops' all_facts'
              | none => .ok (hops', all_facts')

/-- `Reasoner::reason`. -/
def reason {ε : Type} (cfg : ReasonerConfig) (initial_query : Str)
    (search_fn : Str → Except ε (List ReasonerContext)) :
    Except ε ReasoningChain :=
  match reasonLoop cfg search_fn cfg.max_hops 1 initial_query [] [] [] with
  | .error e => .error e
  | .ok (hops, all_facts) =>
      let overall_confidence : ℚ :=
        if hops.isEmpty then 0
        else ((hops.map (fun h => h.confidence)).sum) / (hops.length : ℚ)
      .ok { original_query := initial_query
            hops := hops
            all_facts := all_facts
            confidence := overall_confidence
            hop_count := hops.length }

/-! ## Derived quantities used in theorem statements -/

/-- Sum of the current scores of the NON-dangling nodes (out-degree
> 0); the quantity PageRank mass degenerates to without dangling-mass
redistribution. -/
def danglingFreeMass (g : CitationGraph) (scores : List (Uuid × ℚ)) : ℚ :=
  ((g.nodes.filter (fun u => 0 < g.reference_count u)).map
    (fun u => scoreGet scores u)).sum

/-- The uniform initial score map of `compute` (`1/N` per node). -/
def pagerankInitial (g : CitationGraph) : List (Uuid × ℚ) :=
  g.nodes.map (fun id => (id, 1 / (g.nodes.length : ℚ)))

/-! ## Concrete instances used by counterexamples and witnesses -/

/-- C1 tie counterexample: a chunk of paper 2 only in the vector list. -/
def fuseX : RetrievedChunk := mkChunk 10 2 0 (9/10) .Vector

/-- C1 tie counterexample: a chunk of paper 1 only in the BM25 list. -/
def fuseY : RetrievedChunk := mkChunk 11 1 0 (9/10) .BM25

/-- C2 counterexample: the surviving BM25 chunk. -/
def hyChunk : RetrievedChunk := mkChunk 11 1 0 (1/2) .BM25

/-- C5 counterexample graph: edges 1→3, 1→2, 2→3 (in that insertion
order, so `outgoing[1] = [3, 2]`). -/
def dfsGraph : CitationGraph := buildGraph [(1, 3), (1, 2), (2, 3)]

/-- C3 counterexample graph: a single edge 1→2; node 2 is dangling. -/
def prGraph : CitationGraph := buildGraph [(1, 2)]

/-- A four-byte UTF-8 character (U+1F600). -/
def emojiChar : Char := Char.ofNat 128512

/-- C4 failing input: one chunk whose content is 1000 four-byte
characters (4000 bytes, estimated 1000 tokens). -/
def bigChunk : ChunkInput :=
  { chunk_id := 1, paper_id := 1, paper_title := [],
    content := List.replicate 1000 emojiChar, chunk_index := 0,
    score := 8/10 }

/-- C4 failing configuration: a 600-token budget (remaining budget 600 >
500, so the trim path runs). -/
def cfgC4 : ContextStitcherConfig :=
  { max_tokens := 600, max_windows := 5, stitch_overlap := 100,
    min_chunk_score := 3/10 }

/-- C7 counterexample: the ranked list presents paper 2 first. -/
def chunkP2 : ChunkInput :=
  { chunk_id := 1, paper_id := 2, paper_title := [], content := [],
    chunk_index := 0, score := 1/2 }

/-- C7 counterexample: paper 1 appears second in the ranked list. -/
def chunkP1 : ChunkInput :=
  { chunk_id := 2, paper_id := 1, paper_title := [], content := [],
    chunk_index := 0, score := 1/2 }

/-- C7 counterexample configuration: only one window may be emitted. -/
def cfgC7 : ContextStitcherConfig :=
  { max_tokens := 4000, max_windows := 1, stitch_overlap := 100,
    min_chunk_score := 0 }

/-- C9: the configuration of the spec's reasoner-termination scenario. -/
def cfgC9 : ReasonerConfig :=
  { max_hops := 3, min_confidence := 9/10, max_facts_per_hop := 5,
    use_llm := true }

/-- C9: a retrieved context with score 0.2 whose content yields no
facts (2 bytes < the 20-byte sentence minimum). -/
def ctxC9 : ReasonerContext :=
  { content := lit "xx", source := lit "paper1", score := 1/5 }

/-- C9: the mock `search_fn` of the scenario. -/
def mockSearchC9 : Str → Except Unit (List ReasonerContext) :=
  fun _ => .ok [ctxC9]

/-!
# Theorems

One theorem (plus counterexample / witness where required) per claim,
with shared helper lemmas in between.
-/

/-! ## C10 — empty first search result -/

/-- C10: if the first invocation of `search_fn` succeeds with an empty
result list, `Reasoner::reason` returns `Ok` with zero hops, empty
`all_facts`, `hop_count = 0` and confidence exactly `0`. -/
theorem C10_reason_empty_search {ε : Type} (cfg : ReasonerConfig) (q : Str)
    (f : Str → Except ε (List ReasonerContext)) (h : f q = .ok []) :
    reason cfg q f = .ok ⟨q, [], [], 0, 0⟩ := by
  unfold reason
  cases hm : cfg.max_hops with
  | zero => simp [reasonLoop]
  | succ n => simp [reasonLoop, h]

/-- C10 witness: the theorem applied to a concrete search function that
returns an empty list. -/
theorem C10_reason_empty_search_witness :
    reason (ε := Unit) ReasonerConfig.default (lit "q") (fun _ => .ok []) =
      .ok ⟨lit "q", [], [], 0, 0⟩ :=
  C10_reason_empty_search ReasonerConfig.default (lit "q")
    (fun _ => .ok []) rfl

/-! ## C8 — query parsing never fails -/

/-- C8 counterexample: the claim says an empty query yields an
`InvalidQuery` error, but `QueryParser::parse` succeeds on the empty
query (intent `General`, no entities, confidence `(0.5+0.4)/2`); indeed
no `InvalidQuery` variant exists in the source error type. -/
theorem C8_parse_empty_ok_cex :
    queryParse (ε := Unit) QueryParserConfig.default (lit "") =
      .ok ⟨[], .General, [], [], 9/20⟩ := by
  have h1 : strLower (strTrim (lit "")) = [] := by decide
  have h2 : extractEntities QueryParserConfig.default [] = [] := by decide
  have h3 : expandQuery QueryParserConfig.default [] = [] := by decide
  have h4 : QueryParserConfig.default.enable_expansion = true := rfl
  have h5 : detectIntent [] = QueryIntent.General := by decide
  simp only [queryParse, h1, h2, h3, h4, h5, if_true]
  norm_num [calculateConfidence]

/-- C8 amended: `QueryParser::parse` is infallible on EVERY input —
including empty and whitespace-only queries, which also succeed (with
intent `General`, no entities and confidence `0.45`) rather than
producing `InvalidQuery`. -/
theorem C8_parse_infallible :
    (∀ (ε : Type) (cfg : QueryParserConfig) (q : Str),
       ∃ u, queryParse (ε := ε) cfg q = .ok u) ∧
    queryParse (ε := Unit) QueryParserConfig.default (lit "   ") =
      .ok ⟨[], .General, [], [], 9/20⟩ := by
  refine ⟨fun _ _ _ => ⟨_, rfl⟩, ?_⟩
  have h1 : strLower (strTrim (lit "   ")) = [] := by decide
  have h2 : extractEntities QueryParserConfig.default [] = [] := by decide
  have h3 : expandQuery QueryParserConfig.default [] = [] := by decide
  have h4 : QueryParserConfig.default.enable_expansion = true := rfl
  have h5 : detectIntent [] = QueryIntent.General := by decide
  simp only [queryParse, h1, h2, h3, h4, h5, if_true]
  norm_num [calculateConfidence]

/-! ## C2 — hybrid retrieval error handling -/

/-- C2 counterexample: with the vector retriever failing and BM25
returning one chunk of score `1/2`, the hybrid retriever does NOT return
that chunk as-is: the chunk comes back RRF-fused and renormalized with
score `1` and mode `Hybrid`, and no `PartialUpstream` error is reported.
With BOTH retrievers failing the caller receives `Ok []`, not the first
error. -/
theorem C2_hybrid_swallows_failures_cex :
    hybridRetrieve (ε := Unit) RRFusion.default
        (fun _ => .error ()) (fun _ => .ok [hyChunk]) ⟨10, none⟩ =
      .ok [{ hyChunk with score := 1, retrieval_mode := .Hybrid }] ∧
    hyChunk.score = 1/2 ∧
    hybridRetrieve (ε := Unit) RRFusion.default
        (fun _ => .error ()) (fun _ => .error ()) ⟨10, none⟩ = .ok [] := by
  refine ⟨?_, by norm_num [hyChunk, mkChunk], ?_⟩
  · norm_num [hybridRetrieve, RRFusion.fuse, buildChunkMap, bm25Phase, vectorPhase,
      mapUpdateBm25, entryToResult, normalizeResults, RRFusion.default, hyChunk, mkChunk,
      List.insertionSort, List.orderedInsert]
  · norm_num [hybridRetrieve, RRFusion.fuse, buildChunkMap, bm25Phase, vectorPhase,
      entryToResult, normalizeResults, List.insertionSort]

/-- C2 amended: `HybridRetriever::retrieve` swallows sub-retriever
failures (`unwrap_or_default`): a failed side is equivalent to a side
returning no results, the surviving side's results still pass through
RRF fusion and the `min_score` filter, and the caller always receives
`Ok` — never an `Upstream` or `PartialUpstream` error, which do not
occur in this code path. -/
theorem C2_hybrid_error_is_empty {ε : Type} (fus : RRFusion)
    (f g : SearchRequest → Except ε (List RetrievedChunk))
    (req : SearchRequest) (e : ε)
    (hf : f { limit := req.limit * 2, min_score := none } = .error e) :
    (hybridRetrieve fus f g req =
       hybridRetrieve fus (fun _ => .ok []) g req) ∧
    (hybridRetrieve fus g f req =
       hybridRetrieve fus g (fun _ => .ok []) req) ∧
    (∀ (vr' br' : SearchRequest → Except ε (List RetrievedChunk)),
       ∃ l, hybridRetrieve fus vr' br' req = .ok l) := by
  refine ⟨?_, ?_, fun vr' br' => ⟨_, rfl⟩⟩
  · simp only [hybridRetrieve, hf]
  · simp only [hybridRetrieve, hf]

/-- C2 witness: the amended theorem applied at a concrete failing
retriever paired with a succeeding one. -/
theorem C2_hybrid_error_is_empty_witness :
    (hybridRetrieve (ε := Unit) RRFusion.default (fun _ => .error ())
        (fun _ => .ok [hyChunk]) ⟨10, none⟩ =
      hybridRetrieve RRFusion.default (fun _ => .ok [])
        (fun _ => .ok [hyChunk]) ⟨10, none⟩) ∧
    (hybridRetrieve (ε := Unit) RRFusion.default (fun _ => .ok [hyChunk])
        (fun _ => .error ()) ⟨10, none⟩ =
      hybridRetrieve RRFusion.default (fun _ => .ok [hyChunk])
        (fun _ => .ok []) ⟨10, none⟩) ∧
    (∀ (vr' br' : SearchRequest → Except Unit (List RetrievedChunk)),
       ∃ l, hybridRetrieve RRFusion.default vr' br' ⟨10, none⟩ = .ok l) :=
  C2_hybrid_error_is_empty RRFusion.default (fun _ => .error ())
    (fun _ => .ok [hyChunk]) ⟨10, none⟩ () rfl

/-! ## C4 — stitcher token budget (code bug) -/

/-- Byte length of a repeated character. -/
theorem strByteLen_replicate (n : Nat) (c : Char) :
    strByteLen (List.replicate n c) = n * c.utf8Size := by
  induction n with
  | zero => simp [strByteLen]
  | succ k ih =>
      simp only [List.replicate_succ, strByteLen, List.map_cons,
        List.sum_cons] at ih ⊢
      rw [ih]; ring

set_option maxRecDepth 20000 in
/-- C4: evaluation of `ContextStitcher::stitch` at the failing input.
One chunk of 1000 four-byte characters against a 600-token budget yields
a single window of `token_count = 1000`: `trim_window` compares the BYTE
length (4000) with a CHAR budget (2400), `chars().take(2400)` keeps all
1000 chars, and the emitted window busts the budget, contradicting both
the claim and `trim_window`'s own documentation. -/
theorem C4_stitch_budget_overflow :
    ((stitchWindows cfgC4 [bigChunk]).map (fun w => w.token_count)).sum
        = 1000 ∧
    ¬ ((stitchWindows cfgC4 [bigChunk]).map (fun w => w.token_count)).sum
        ≤ cfgC4.max_tokens ∧
    cfgC4.max_tokens = 600 := by
  have hsum :
      ((stitchWindows cfgC4 [bigChunk]).map (fun w => w.token_count)).sum
        = 1000 := by
    have hb : strByteLen bigChunk.content = 4000 := by
      rw [show bigChunk.content = List.replicate 1000 emojiChar from rfl,
        strByteLen_replicate, (show Char.utf8Size emojiChar = 4 by decide)]
    have htake : bigChunk.content.take 2400 = bigChunk.content := by
      rw [show bigChunk.content = List.replicate 1000 emojiChar from rfl,
        List.take_replicate, (show min 2400 1000 = 1000 by norm_num)]
    have hs : bigChunk.score = 8/10 := rfl
    have hp : bigChunk.paper_id = 1 := rfl
    norm_num [stitchWindows, stitchLoop, createWindow, trimWindow,
      stitchChunks, estimateTokens, cfgC4, assocPush, List.insertionSort,
      List.orderedInsert, hb, htake, hs, hp]
  refine ⟨hsum, ?_, rfl⟩
  rw [hsum]
  norm_num [cfgC4]

/-! ## C1 — RRF fusion counterexample (tie-break) -/

/-- C1 counterexample: with equal weights `(1/2, 1/2)`, a chunk of paper
2 ranked 1 in the vector list and a chunk of paper 1 ranked 1 in the
BM25 list tie exactly (both normalized scores are `1`), yet the output
lists paper 2 BEFORE paper 1: the sort has NO `(paper_id, chunk_index)`
tie-break (`sort_by` on `rrf_score` alone, ties `Ordering::Equal`), so
ties keep map-iteration order — insertion order in this model,
nondeterministic `HashMap` order in the source. -/
theorem C1_fuse_tie_order_cex :
    ((RRFusion.with_weights (1/2) (1/2)).fuse [fuseX] [fuseY] 10).map
        (fun r => (r.chunk.paper_id, r.chunk.chunk_index)) = [(2, 0), (1, 0)] ∧
    ((RRFusion.with_weights (1/2) (1/2)).fuse [fuseX] [fuseY] 10).map
        (fun r => r.rrf_score) = [1, 1] := by
  constructor <;>
  norm_num [RRFusion.fuse, RRFusion.with_weights, buildChunkMap, bm25Phase,
    vectorPhase, mapInsert, mapUpdateBm25, entryToResult, normalizeResults,
    fuseX, fuseY, mkChunk, List.insertionSort, List.orderedInsert, fusionGE]

/-! ## C3 — PageRank mass counterexample (no dangling redistribution) -/

/-- C3 counterexample: on the graph `1→2` (node 2 dangling) with the
default damping `0.85`, the FIRST power iteration already leaks mass:
the total drops from `1` to `23/40 = 0.575`, far outside `1 ± 1e-6`.
`compute` has no dangling-redistribution term (`new_score = teleport +
damping * citation_sum` only). -/
theorem C3_pagerank_mass_leak_cex :
    scoreSum (pagerankStep prGraph (85/100) (pagerankInitial prGraph)) = 23/40 ∧
    ¬ ((1 : ℚ) - 1/1000000 ≤ 23/40) ∧
    PageRankConfig.default.damping = 85/100 := by
  refine ⟨?_, by norm_num, rfl⟩
  norm_num [scoreSum, pagerankStep, pagerankInitial, prGraph, buildGraph,
    CitationGraph.new, CitationGraph.add_edge, assocPush, setInsert,
    CitationGraph.get_citations, CitationGraph.reference_count,
    pagerankOutCounts, assocGet, scoreGet, outGet]

/-! ## C5 — traversal counterexample (stack, not BFS) -/

/-- C5 counterexample: on edges 1→3, 1→2, 2→3, `traverse(1, 2, Forward)`
returns `[(2,1), (3,2)]`: paper 3 is a DIRECT neighbour of the seed
(minimal distance 1) but is reported at hop 2, because the work list is
a LIFO stack (`Vec::pop`) — a depth-first traversal, not a BFS. -/
theorem C5_traverse_not_bfs_cex :
    dfsGraph.traverse 1 2 .Forward = [(2, 1), (3, 2)] ∧
    3 ∈ dfsGraph.get_references 1 := by decide

/-! ## C6 — graph counterexample (self-edges and duplicates kept) -/

/-- C6 counterexample: `add_edge` performs no self-edge check and no
deduplication: a 5→5 row produces the self-edge `5 ∈ outgoing[5]`, and
inserting the pair (1,2) twice stores it twice. -/
theorem C6_graph_self_edge_dup_cex :
    (buildGraph [(5, 5)]).get_references 5 = [5] ∧
    (buildGraph [(1, 2), (1, 2)]).get_references 1 = [2, 2] := by decide

/-! ## C7 — stitcher paper-order counterexample -/

/-- C7 counterexample: the ranked input presents paper 2 first, but with
`max_windows = 1` the single emitted window belongs to paper 1: `stitch`
SORTS the chunks by `(paper_id, chunk_index)` before grouping and then
iterates the groups in map order (insertion order of the sorted list in
this model — ascending `paper_id`; arbitrary `HashMap` order in the
source), not in first-appearance order of the ranked input. -/
theorem C7_stitch_order_cex :
    (stitchWindows cfgC7 [chunkP2, chunkP1]).map (fun w => w.paper_id)
        = [1] ∧
    chunkP2.paper_id = 2 ∧ chunkP1.paper_id = 1 := by
  refine ⟨?_, rfl, rfl⟩
  norm_num [stitchWindows, stitchLoop, createWindow, trimWindow, stitchChunks,
    estimateTokens, strByteLen, cfgC7, chunkP1, chunkP2, assocPush,
    List.insertionSort, List.orderedInsert, chunkLexLE, chunkIdxLE, windowGE]

/-! ## C9 — hop-confidence counterexample (0.3 fallback) -/

/-- C9 counterexample: a hop whose contexts (score `0.2`) yield no facts
gets confidence `0.3` — the hard-coded early return of
`calculate_hop_confidence` — NOT `mean(result_score, fact_yield) =
(0.2 + 0)/2 = 0.1` as the claim's formula requires for every hop.  (The
claim's termination consequence does hold: `hop_count = 1`.) -/
theorem C9_hop_confidence_formula_cex :
    reason (ε := Unit) cfgC9 (lit "what") mockSearchC9 =
      .ok ⟨lit "what",
        [⟨lit "what", 1, [], 1, none, none, 3/10⟩], [], 3/10, 1⟩ ∧
    (3 : ℚ)/10 ≠ (ctxC9.score + 0) / 2 := by
  constructor
  · have h1 : extractFacts cfgC9 [ctxC9] (lit "what") = [] := by decide
    have h2 : generateNextQuery (lit "what") [] = (none, none) := by decide
    have h3 : calcHopConfidence cfgC9 [ctxC9] [] = 3/10 := by
      simp [calcHopConfidence]
    simp only [reason, reasonLoop, mockSearchC9,
      (show cfgC9.max_hops = 3 from rfl),
      (show cfgC9.min_confidence = 9/10 from rfl),
      (show cfgC9.max_facts_per_hop = 5 from rfl),
      h1, h2, h3, dedupTake]
    norm_num
  · have h : ctxC9.score = 1/5 := rfl
    rw [h]; norm_num

/-! ## C6 — amended: adjacency maps agree with multiplicity -/

/-- Lookup after a multimap push. -/
theorem assocGet_push {β : Type} (m : List (Uuid × List β)) (key k : Uuid)
    (v : β) :
    assocGet (assocPush m key v) k =
      if k = key then assocGet m k ++ [v] else assocGet m k := by
  induction m with
  | nil =>
      by_cases h : k = key
      · subst h; simp [assocPush, assocGet]
      · simp [assocPush, assocGet, h,
          (show ¬ (key = k) from fun hh => h hh.symm)]
  | cons hd tl ih =>
      obtain ⟨k0, vs⟩ := hd
      by_cases h0 : k0 = key
      · subst h0
        by_cases h : k0 = k
        · subst h; simp [assocPush, assocGet]
        · simp [assocPush, assocGet, h,
            (show ¬ (k = k0) from fun hh => h hh.symm)]
      · by_cases h : k0 = k
        · subst h
          simp [assocPush, assocGet, h0,
            (show ¬ (k0 = key) from h0)]
        · simp [assocPush, assocGet, h0, h, ih]

/-- Effect of `add_edge` on an outgoing multiplicity. -/
theorem count_refs_addEdge (g : CitationGraph) (c t u v : Uuid) :
    ((g.add_edge c t).get_references u).count v =
      (g.get_references u).count v + (if u = c ∧ v = t then 1 else 0) := by
  simp only [CitationGraph.add_edge, CitationGraph.get_references, assocGet_push]
  by_cases h1 : u = c
  · subst h1
    by_cases h2 : v = t <;>
      simp [h2, List.count_append, List.count_cons]
  · simp [h1]

/-- Effect of `add_edge` on an incoming multiplicity. -/
theorem count_cits_addEdge (g : CitationGraph) (c t u v : Uuid) :
    ((g.add_edge c t).get_citations v).count u =
      (g.get_citations v).count u + (if u = c ∧ v = t then 1 else 0) := by
  simp only [CitationGraph.add_edge, CitationGraph.get_citations, assocGet_push]
  by_cases h2 : v = t
  · subst h2
    by_cases h1 : u = c <;>
      simp [h1, List.count_append, List.count_cons]
  · simp [h2]

/-- Multiplicity agreement is preserved by any `add_edge` sequence. -/
theorem count_symm_foldl (es : List (Uuid × Uuid)) (g : CitationGraph)
    (h : ∀ u v, (g.get_references u).count v = (g.get_citations v).count u) :
    ∀ u v,
      ((es.foldl (fun g e => g.add_edge e.1 e.2) g).get_references u).count v =
      ((es.foldl (fun g e => g.add_edge e.1 e.2) g).get_citations v).count u := by
  induction es generalizing g with
  | nil => exact h
  | cons e rest ih =>
      intro u v
      refine ih (g.add_edge e.1 e.2) ?_ u v
      intro u v
      rw [count_refs_addEdge, count_cits_addEdge, h u v]

/-- C6 amended: after any sequence of edge insertions the two adjacency
maps agree WITH MULTIPLICITY — the number of copies of `v` in
`outgoing[u]` equals the number of copies of `u` in `incoming[v]` (and
hence `v ∈ outgoing[u] ↔ u ∈ incoming[v]`); but `add_edge` performs NO
self-edge rejection and NO deduplication (see the counterexample). -/
theorem C6_graph_adjacency_symm (es : List (Uuid × Uuid)) (u v : Uuid) :
    ((buildGraph es).get_references u).count v =
      ((buildGraph es).get_citations v).count u ∧
    (v ∈ (buildGraph es).get_references u ↔
      u ∈ (buildGraph es).get_citations v) := by
  have hc := count_symm_foldl es CitationGraph.new
    (by intro u v; simp [CitationGraph.new, CitationGraph.get_references,
      CitationGraph.get_citations, assocGet]) u v
  rw [buildGraph]
  refine ⟨hc, ?_⟩
  rw [← List.count_pos_iff, ← List.count_pos_iff, hc]

/-! ## C5 — amended: the traversal is a bounded DFS -/

/-- The traversal loop on an empty work list. -/
theorem traverseLoop_nil (g : CitationGraph) (start : Uuid) (depth : Nat)
    (dir : TraversalDirection) (fuel : Nat) (visited : List Uuid) :
    traverseLoop g start depth dir fuel visited [] = [] := by
  cases fuel <;> simp [traverseLoop]

theorem traverseLoop_props (g : CitationGraph) (start : Uuid) (depth : Nat)
    (dir : TraversalDirection) :
    ∀ (fuel : Nat) (visited : List Uuid) (queue : List (Uuid × Nat)),
      (∀ pd ∈ queue, pd.1 = start ∨ 1 ≤ pd.2) →
      (∀ pd ∈ traverseLoop g start depth dir fuel visited queue,
          1 ≤ pd.2 ∧ pd.2 ≤ depth ∧ pd.1 ≠ start ∧ pd.1 ∉ visited) ∧
      ((traverseLoop g start depth dir fuel visited queue).map Prod.fst).Nodup := by
  intro fuel
  induction fuel with
  | zero => intro visited queue hq; simp [traverseLoop]
  | succ fuel ih =>
      intro visited queue hq
      match queue with
      | [] => simp [traverseLoop]
      | (current, d) :: rest =>
          by_cases hskip : depth < d ∨ current ∈ visited
          · rw [traverseLoop, if_pos hskip]
            exact ih visited rest (fun pd hpd => hq pd (List.mem_cons_of_mem _ hpd))
          · rw [traverseLoop, if_neg hskip]
            push_neg at hskip
            obtain ⟨hdep, hvis⟩ := hskip
            set visited' := current :: visited with hv
            set pushed :=
              (if d < depth then
                (((traverseNeighbors g dir current).filter
                    (fun n => n ∉ visited')).map
                  (fun n => (n, d + 1))).reverse
              else []) with hp
            have hq' : ∀ pd ∈ pushed ++ rest, pd.1 = start ∨ 1 ≤ pd.2 := by
              intro pd hpd
              rcases List.mem_append.mp hpd with hl | hr
              · right
                rw [hp] at hl
                split at hl
                · rcases List.mem_reverse.mp hl with hm
                  rcases List.mem_map.mp hm with ⟨n, _, rfl⟩
                  omega
                · simp at hl
              · exact hq pd (List.mem_cons_of_mem _ hr)
            have IH := ih visited' (pushed ++ rest) hq'
            constructor
            · intro pd hpd
              rcases List.mem_append.mp hpd with hl | hr
              · have hcs : current ≠ start ∧ pd = (current, d) := by
                  by_cases hc : current ≠ start <;> simp [hc] at hl
                  · exact ⟨hc, hl⟩
                obtain ⟨hc, rfl⟩ := hcs
                have h1 : 1 ≤ d := by
                  rcases hq (current, d) (List.mem_cons_self _ _) with h | h
                  · exact absurd h hc
                  · exact h
                exact ⟨h1, hdep, hc, hvis⟩
              · have := IH.1 pd hr
                refine ⟨this.1, this.2.1, this.2.2.1, ?_⟩
                have hnv := this.2.2.2
                rw [hv] at hnv
                exact fun hmem => hnv (List.mem_cons_of_mem _ hmem)
            · rw [List.map_append]
              by_cases hc : current ≠ start
              · rw [if_pos hc]
                simp only [List.map_cons, List.map_nil, List.singleton_append]
                refine List.Nodup.cons ?_ IH.2
                intro hmem
                simp only [List.mem_map] at hmem
                obtain ⟨pd, hpd, hfst⟩ := hmem
                have := (IH.1 pd hpd).2.2.2
                rw [hv] at this
                exact this (hfst ▸ List.mem_cons_self _ _)
              · rw [if_neg hc]
                simp only [List.map_nil, List.nil_append]
                have h2 := IH.2
                rw [hp] at h2
                exact h2

/-- C5 amended: `traverse` is a depth-limited STACK-based (depth-first)
search: every returned pair `(p, d)` has `1 ≤ d ≤ depth` with `p` not
the seed, each paper is returned at most once (first visit wins), `d` is
the depth at which the traversal first visited `p` — NOT necessarily the
minimal edge distance (see the counterexample) — and in direction `Both`
no neighbours are followed at all (the source's `match` arm evaluates to
an empty slice), so the result is always empty. -/
theorem C5_traverse_dfs_props :
    (∀ (g : CitationGraph) (start : Uuid) (depth : Nat)
        (dir : TraversalDirection) (pd : Uuid × Nat),
        pd ∈ g.traverse start depth dir →
        1 ≤ pd.2 ∧ pd.2 ≤ depth ∧ pd.1 ≠ start) ∧
    (∀ (g : CitationGraph) (start : Uuid) (depth : Nat)
        (dir : TraversalDirection),
        ((g.traverse start depth dir).map Prod.fst).Nodup) ∧
    (∀ (g : CitationGraph) (start : Uuid) (depth : Nat),
        g.traverse start depth .Both = []) := by
  have hq0 : ∀ (start : Uuid) (pd : Uuid × Nat),
      pd ∈ [(start, 0)] → pd.1 = start ∨ 1 ≤ pd.2 := by
    intro start pd hpd
    simp at hpd
    left; rw [hpd]
  refine ⟨?_, ?_, ?_⟩
  · intro g start depth dir pd hpd
    have h := (traverseLoop_props g start depth dir _ [] [(start, 0)]
      (hq0 start)).1 pd hpd
    exact ⟨h.1, h.2.1, h.2.2.1⟩
  · intro g start depth dir
    exact (traverseLoop_props g start depth dir _ [] [(start, 0)]
      (hq0 start)).2
  · intro g start depth
    show traverseLoop g start depth .Both _ [] [(start, 0)] = []
    generalize ((g.idCount + 2) * (g.adjSize + 1)) = fuel
    cases fuel with
    | zero => simp [traverseLoop]
    | succ fuel =>
        rw [traverseLoop]
        by_cases hvis : start ∈ ([] : List Uuid)
        · simp at hvis
        · rw [if_neg (by simp)]
          simp [traverseNeighbors, traverseLoop_nil]

/-- C5 witness: the amended theorem applied to the concrete graph. -/
theorem C5_traverse_dfs_props_witness :
    (1 ≤ 1 ∧ 1 ≤ 2 ∧ (2 : Uuid) ≠ 1) ∧
    ((dfsGraph.traverse 1 2 .Forward).map Prod.fst).Nodup ∧
    dfsGraph.traverse 1 2 .Both = [] :=
  ⟨C5_traverse_dfs_props.1 dfsGraph 1 2 .Forward (2, 1) (by decide),
   C5_traverse_dfs_props.2.1 dfsGraph 1 2 .Forward,
   C5_traverse_dfs_props.2.2 dfsGraph 1 2⟩

/-! ## C9 — amended: hop confidence and one-hop termination -/

/-- Mean of a constant score list. -/
theorem avgScore_const (ctxs : List ReasonerContext) (s : ℚ) (hne : ctxs ≠ [])
    (hs : ∀ c ∈ ctxs, c.score = s) :
    (ctxs.map (fun c => c.score)).sum / (ctxs.length : ℚ) = s := by
  have hmap : ctxs.map (fun c => c.score) = List.replicate ctxs.length s := by
    refine List.eq_replicate.2 ⟨by simp, ?_⟩
    intro b hb
    obtain ⟨c, hc, rfl⟩ := List.mem_map.1 hb
    exact hs c hc
  rw [hmap, List.sum_replicate, nsmul_eq_mul]
  have hlen : (ctxs.length : ℚ) ≠ 0 := by
    have := List.length_pos.2 hne
    exact_mod_cast Nat.pos_iff_ne_zero.1 this
  rw [mul_comm, mul_div_assoc, div_self hlen, mul_one]

theorem calcHopConfidence_lt_cfgC9 (ctxs : List ReasonerContext)
    (facts : List Str) (hne : ctxs ≠ [])
    (hs : ∀ c ∈ ctxs, c.score = 1/5) :
    calcHopConfidence cfgC9 ctxs facts < 9/10 := by
  unfold calcHopConfidence
  split_ifs with h
  · norm_num
  · rw [avgScore_const ctxs (1/5) hne hs]
    have hmin : min ((facts.length : ℚ) / (cfgC9.max_facts_per_hop : ℚ)) 1 ≤ 1 :=
      min_le_right _ _
    linarith

theorem reasonLoop_low_conf {ε : Type}
    (f : Str → Except ε (List ReasonerContext)) (q : Str)
    (remaining hop_num : Nat) (seen : List Str) (hops : List ReasoningHop)
    (all : List Str) (ctxs : List ReasonerContext)
    (hf : f q = .ok ctxs) (hne : ctxs ≠ [])
    (hconf : calcHopConfidence cfgC9 ctxs
        (dedupTake seen cfgC9.max_facts_per_hop (extractFacts cfgC9 ctxs q)).1
        < cfgC9.min_confidence) :
    ∃ hop, reasonLoop cfgC9 f (remaining + 1) hop_num q seen hops all =
      .ok (hops ++ [hop], all ++ hop.facts) := by
  refine ⟨{ query := q, hop_number := hop_num,
            facts := (dedupTake seen cfgC9.max_facts_per_hop
              (extractFacts cfgC9 ctxs q)).1,
            docs_considered := ctxs.length,
            next_query := (if hop_num < cfgC9.max_hops
              then generateNextQuery q (dedupTake seen
                cfgC9.max_facts_per_hop (extractFacts cfgC9 ctxs q)).1
              else (none, none)).1,
            rationale := (if hop_num < cfgC9.max_hops
              then generateNextQuery q (dedupTake seen
                cfgC9.max_facts_per_hop (extractFacts cfgC9 ctxs q)).1
              else (none, none)).2,
            confidence := calcHopConfidence cfgC9 ctxs (dedupTake seen
              cfgC9.max_facts_per_hop (extractFacts cfgC9 ctxs q)).1 }, ?_⟩
  simp only [reasonLoop, hf]
  rw [if_neg (by simp only [List.isEmpty_iff]; exact hne)]
  rw [if_pos hconf]

/-- C9 amended: `calculate_hop_confidence` equals
`mean(result_score, fact_yield)` ONLY when the hop has nonempty contexts
and at least one (new) fact; with empty contexts or no facts it is the
hard-coded `0.3` (see the counterexample).  The claim's termination
consequence holds: with `max_hops = 3`, `min_confidence = 0.9` and a
search function returning nonempty score-`0.2` results, the chain stops
after exactly one hop. -/
theorem C9_hop_confidence_amended :
    (∀ (cfg : ReasonerConfig) (ctxs : List ReasonerContext) (facts : List Str),
        ctxs ≠ [] → facts ≠ [] →
        calcHopConfidence cfg ctxs facts =
          ((ctxs.map (fun c => c.score)).sum / (ctxs.length : ℚ) +
            min ((facts.length : ℚ) / (cfg.max_facts_per_hop : ℚ)) 1) / 2) ∧
    (∀ (ε : Type) (f : Str → Except ε (List ReasonerContext)) (q : Str)
        (ctxs : List ReasonerContext),
        f q = .ok ctxs → ctxs ≠ [] → (∀ c ∈ ctxs, c.score = 1/5) →
        ∃ ch, reason cfgC9 q f = .ok ch ∧ ch.hop_count = 1) := by
  constructor
  · intro cfg ctxs facts h1 h2
    unfold calcHopConfidence
    rw [if_neg]
    simp [List.isEmpty_iff, h1, h2]
  · intro ε f q ctxs hf hne hs
    have hconf : calcHopConfidence cfgC9 ctxs
        (dedupTake [] cfgC9.max_facts_per_hop (extractFacts cfgC9 ctxs q)).1
        < cfgC9.min_confidence :=
      calcHopConfidence_lt_cfgC9 ctxs _ hne hs
    obtain ⟨hop, hloop⟩ := reasonLoop_low_conf f q 2 1 [] [] [] ctxs hf hne hconf
    refine ⟨⟨q, [hop], hop.facts,
      (([hop].map (fun h => h.confidence)).sum) / (([hop].length : ℚ)), 1⟩,
      ?_, rfl⟩
    unfold reason
    rw [show cfgC9.max_hops = 3 from rfl, show (3 : Nat) = 2 + 1 from rfl,
      hloop]
    rfl

/-- C9 witness: the amended theorem applied at concrete inputs. -/
theorem C9_hop_confidence_amended_witness :
    (calcHopConfidence ReasonerConfig.default [ctxC9] [lit "f"] =
      (([ctxC9].map (fun c => c.score)).sum / (([ctxC9].length : ℚ)) +
        min ((([lit "f"].length : ℚ)) /
          ((ReasonerConfig.default.max_facts_per_hop : ℚ))) 1) / 2) ∧
    (∃ ch, reason cfgC9 (lit "what") mockSearchC9 = .ok ch ∧
      ch.hop_count = 1) :=
  ⟨C9_hop_confidence_amended.1 ReasonerConfig.default [ctxC9] [lit "f"]
      (by simp) (by simp),
   C9_hop_confidence_amended.2 Unit mockSearchC9 (lit "what") [ctxC9] rfl
      (by simp) (by intro c hc; simp at hc; rw [hc]; rfl)⟩

/-! ## C3 — amended: the exact mass identity of one PageRank step -/

/-- `add_edge` on an outgoing list. -/
theorem refs_addEdge (g : CitationGraph) (c t u : Uuid) :
    (g.add_edge c t).get_references u =
      if u = c then g.get_references u ++ [t] else g.get_references u := by
  simp only [CitationGraph.add_edge, CitationGraph.get_references, assocGet_push]

theorem cits_addEdge2 (g : CitationGraph) (c t v : Uuid) :
    (g.add_edge c t).get_citations v =
      if v = t then g.get_citations v ++ [c] else g.get_citations v := by
  simp only [CitationGraph.add_edge, CitationGraph.get_citations, assocGet_push]

theorem refs_foldl (es : List (Uuid × Uuid)) :
    ∀ (g : CitationGraph) (u : Uuid),
      ((es.foldl (fun g e => g.add_edge e.1 e.2) g)).get_references u =
        g.get_references u ++
          (es.filter (fun e => e.1 = u)).map (fun e => e.2) := by
  induction es with
  | nil => intro g u; simp
  | cons e rest ih =>
      intro g u
      rw [List.foldl_cons, ih, refs_addEdge]
      by_cases h : u = e.1
      · simp [List.filter_cons, h.symm, List.append_assoc]
      · simp [List.filter_cons, h,
          (show ¬(e.1 = u) from fun hh => h hh.symm)]

theorem cits_foldl (es : List (Uuid × Uuid)) :
    ∀ (g : CitationGraph) (v : Uuid),
      ((es.foldl (fun g e => g.add_edge e.1 e.2) g)).get_citations v =
        g.get_citations v ++
          (es.filter (fun e => e.2 = v)).map (fun e => e.1) := by
  induction es with
  | nil => intro g v; simp
  | cons e rest ih =>
      intro g v
      rw [List.foldl_cons, ih, cits_addEdge2]
      by_cases h : v = e.2
      · simp [List.filter_cons, h.symm, List.append_assoc]
      · simp [List.filter_cons, h,
          (show ¬(e.2 = v) from fun hh => h hh.symm)]

theorem refs_buildGraph (es : List (Uuid × Uuid)) (u : Uuid) :
    (buildGraph es).get_references u =
      (es.filter (fun e => e.1 = u)).map (fun e => e.2) := by
  rw [buildGraph, refs_foldl]
  simp [CitationGraph.new, CitationGraph.get_references, assocGet]

theorem cits_buildGraph (es : List (Uuid × Uuid)) (v : Uuid) :
    (buildGraph es).get_citations v =
      (es.filter (fun e => e.2 = v)).map (fun e => e.1) := by
  rw [buildGraph, cits_foldl]
  simp [CitationGraph.new, CitationGraph.get_citations, assocGet]

theorem mem_setInsert (s : List Uuid) (x y : Uuid) :
    y ∈ setInsert s x ↔ y ∈ s ∨ y = x := by
  by_cases h : x ∈ s
  · simp only [setInsert, if_pos h]
    constructor
    · exact Or.inl
    · rintro (hy | rfl)
      · exact hy
      · exact h
  · simp [setInsert, if_neg h, List.mem_append]

theorem nodup_setInsert (s : List Uuid) (x : Uuid) (h : s.Nodup) :
    (setInsert s x).Nodup := by
  unfold setInsert
  split_ifs with hx
  · exact h
  · simp [List.nodup_append, h, hx]

theorem nodes_nodup_foldl (es : List (Uuid × Uuid)) :
    ∀ (g : CitationGraph), g.nodes.Nodup →
      ((es.foldl (fun g e => g.add_edge e.1 e.2) g)).nodes.Nodup := by
  induction es with
  | nil => intro g h; exact h
  | cons e rest ih =>
      intro g h
      exact ih _ (nodup_setInsert _ _ (nodup_setInsert _ _ h))

theorem nodes_mono_foldl (es : List (Uuid × Uuid)) :
    ∀ (g : CitationGraph) (x : Uuid), x ∈ g.nodes →
      x ∈ ((es.foldl (fun g e => g.add_edge e.1 e.2) g)).nodes := by
  induction es with
  | nil => intro g x h; exact h
  | cons e rest ih =>
      intro g x h
      refine ih _ x ?_
      exact (mem_setInsert _ _ _).2 (Or.inl ((mem_setInsert _ _ _).2 (Or.inl h)))

theorem nodes_cover (es : List (Uuid × Uuid)) :
    ∀ (g : CitationGraph) (e : Uuid × Uuid), e ∈ es →
      e.1 ∈ ((es.foldl (fun g e => g.add_edge e.1 e.2) g)).nodes ∧
      e.2 ∈ ((es.foldl (fun g e => g.add_edge e.1 e.2) g)).nodes := by
  induction es with
  | nil => intro g e h; simp at h
  | cons e0 rest ih =>
      intro g e h
      rcases List.mem_cons.mp h with rfl | hrest
      · constructor
        · exact nodes_mono_foldl rest _ _
            ((mem_setInsert _ _ _).2 (Or.inl ((mem_setInsert _ _ _).2 (Or.inr rfl))))
        · exact nodes_mono_foldl rest _ _
            ((mem_setInsert _ _ _).2 (Or.inr rfl))
      · exact ih _ e hrest

theorem sum_ite_unique (ns : List Uuid) (a : Uuid) (x : ℚ)
    (hnd : ns.Nodup) (ha : a ∈ ns) :
    (ns.map (fun v => if a = v then x else 0)).sum = x := by
  induction ns with
  | nil => simp at ha
  | cons b rest ih =>
      rcases List.mem_cons.mp ha with rfl | hrest
      · simp only [List.map_cons, List.sum_cons]
        have hz : (rest.map (fun v => if a = v then x else 0)).sum = 0 := by
          apply List.sum_eq_zero
          intro y hy
          obtain ⟨v, hv, rfl⟩ := List.mem_map.1 hy
          apply if_neg
          intro he
          exact (List.nodup_cons.mp hnd).1 (by rw [he]; exact hv)
        rw [hz, add_zero]
        simp
      · have hne : a ≠ b := fun he =>
          (List.nodup_cons.mp hnd).1 (he ▸ hrest)
        simp only [List.map_cons, List.sum_cons, if_neg hne]
        rw [ih (List.nodup_cons.mp hnd).2 hrest, zero_add]

theorem sum_fiber_snd (ns : List Uuid) (hnd : ns.Nodup)
    (F : Uuid × Uuid → ℚ) :
    ∀ (es : List (Uuid × Uuid)), (∀ e ∈ es, e.2 ∈ ns) →
      (ns.map (fun v => ((es.filter (fun e => e.2 = v)).map F).sum)).sum =
        (es.map F).sum := by
  intro es
  induction es with
  | nil =>
      intro _
      simp
  | cons e rest ih =>
      intro hcov
      have hsplit : ∀ v : Uuid,
          (((e :: rest).filter (fun x => x.2 = v)).map F).sum =
            (if e.2 = v then F e else 0) +
              ((rest.filter (fun x => x.2 = v)).map F).sum := by
        intro v
        by_cases h : e.2 = v <;> simp [List.filter_cons, h]
      simp only [hsplit]
      rw [List.sum_map_add,
        sum_ite_unique ns e.2 (F e) hnd (hcov e (List.mem_cons_self _ _)),
        ih (fun x hx => hcov x (List.mem_cons_of_mem _ hx))]
      simp

theorem sum_fiber_fst (ns : List Uuid) (hnd : ns.Nodup)
    (F : Uuid × Uuid → ℚ) :
    ∀ (es : List (Uuid × Uuid)), (∀ e ∈ es, e.1 ∈ ns) →
      (ns.map (fun u => ((es.filter (fun e => e.1 = u)).map F).sum)).sum =
        (es.map F).sum := by
  intro es
  induction es with
  | nil =>
      intro _
      simp
  | cons e rest ih =>
      intro hcov
      have hsplit : ∀ u : Uuid,
          (((e :: rest).filter (fun x => x.1 = u)).map F).sum =
            (if e.1 = u then F e else 0) +
              ((rest.filter (fun x => x.1 = u)).map F).sum := by
        intro u
        by_cases h : e.1 = u <;> simp [List.filter_cons, h]
      simp only [hsplit]
      rw [List.sum_map_add,
        sum_ite_unique ns e.1 (F e) hnd (hcov e (List.mem_cons_self _ _)),
        ih (fun x hx => hcov x (List.mem_cons_of_mem _ hx))]
      simp

theorem sum_map_const_on (l : List (Uuid × Uuid)) (c : ℚ)
    (f : Uuid × Uuid → ℚ) (h : ∀ x ∈ l, f x = c) :
    (l.map f).sum = l.length * c := by
  induction l with
  | nil => simp
  | cons x rest ih =>
      simp only [List.map_cons, List.sum_cons, List.length_cons]
      rw [h x (List.mem_cons_self _ _),
        ih (fun y hy => h y (List.mem_cons_of_mem _ hy))]
      push_cast
      ring

theorem outGet_map (ns : List Uuid) (f : Uuid → Nat) (u : Uuid)
    (hu : u ∈ ns) :
    outGet (ns.map (fun id => (id, f id))) u = f u := by
  induction ns with
  | nil => simp at hu
  | cons b rest ih =>
      by_cases h : b = u
      · simp [outGet, h]
      · rcases List.mem_cons.mp hu with rfl | hrest
        · exact absurd rfl h
        · simp only [List.map_cons, outGet, if_neg h]
          exact ih hrest

theorem sum_ite_filter (ns : List Uuid) (p : Uuid → Bool) (f : Uuid → ℚ) :
    (ns.map (fun u => if p u then f u else 0)).sum =
      ((ns.filter p).map f).sum := by
  induction ns with
  | nil => simp
  | cons b rest ih =>
      by_cases h : p b <;>
        simp [List.filter_cons, h, ih]

theorem map_snd_pair (ns : List Uuid) (h : Uuid → ℚ) :
    (ns.map (fun v => (v, h v))).map (fun p => p.2) = ns.map h := by
  simp

theorem sum_affine (ns : List Uuid) (t dd : ℚ) (S : Uuid → ℚ) :
    (ns.map (fun v => t + dd * S v)).sum =
      ns.length * t + dd * (ns.map S).sum := by
  induction ns with
  | nil => simp
  | cons b rest ih =>
      simp only [List.map_cons, List.sum_cons, List.length_cons]
      rw [ih]
      push_cast
      ring

theorem sum_ite_filter' (ns : List Uuid) (p : Uuid → Prop) [DecidablePred p]
    (f : Uuid → ℚ) :
    (ns.map (fun u => if p u then f u else 0)).sum =
      ((ns.filter (fun u => decide (p u))).map f).sum := by
  induction ns with
  | nil => simp
  | cons b rest ih =>
      by_cases h : p b <;> simp [List.filter_cons, h, ih]

/-- C3 amended: `compute` performs NO dangling-mass redistribution;
each power-iteration step sets `score'(v) = (1-d)/N + d * Σ_{u cites v}
score(u)/out_degree(u)`, and consequently the total mass after a step
equals `(1-d) + d * (sum of the current scores of the NON-dangling
nodes)`.  Mass is conserved only when every node has positive
out-degree; with a dangling node it leaks (see the counterexample). -/
theorem C3_pagerank_mass_amended (es : List (Uuid × Uuid)) (hne : es ≠ [])
    (d : ℚ) (scores : List (Uuid × ℚ)) :
    scoreSum (pagerankStep (buildGraph es) d scores) =
      (1 - d) + d * danglingFreeMass (buildGraph es) scores := by
  have hnd : (buildGraph es).nodes.Nodup :=
    nodes_nodup_foldl es CitationGraph.new (by simp [CitationGraph.new])
  have hcov1 : ∀ e ∈ es, e.1 ∈ (buildGraph es).nodes :=
    fun e he => (nodes_cover es CitationGraph.new e he).1
  have hcov2 : ∀ e ∈ es, e.2 ∈ (buildGraph es).nodes :=
    fun e he => (nodes_cover es CitationGraph.new e he).2
  obtain ⟨e0, he0⟩ : ∃ e, e ∈ es := by
    cases es with
    | nil => exact absurd rfl hne
    | cons a l => exact ⟨a, List.mem_cons_self _ _⟩
  have hNne : (buildGraph es).nodes ≠ [] := List.ne_nil_of_mem (hcov1 e0 he0)
  have hNQ : (((buildGraph es).nodes.length : Nat) : ℚ) ≠ 0 := by
    have := List.length_pos.2 hNne
    exact_mod_cast Nat.pos_iff_ne_zero.1 this
  set F : Uuid × Uuid → ℚ := fun e =>
    scoreGet scores e.1 /
      ((outGet (pagerankOutCounts (buildGraph es)) e.1 : Nat) : ℚ) with hF
  have hinner : ∀ v : Uuid,
      (((buildGraph es).get_citations v).map (fun citing =>
        scoreGet scores citing /
          ((outGet (pagerankOutCounts (buildGraph es)) citing : Nat) : ℚ))).sum =
      ((es.filter (fun e => e.2 = v)).map F).sum := by
    intro v
    rw [cits_buildGraph, List.map_map]
    rfl
  have hpoint : ∀ u ∈ (buildGraph es).nodes,
      ((es.filter (fun e => e.1 = u)).map F).sum =
        if 0 < (buildGraph es).reference_count u
        then scoreGet scores u else 0 := by
    intro u hu
    have hconst : ∀ x ∈ es.filter (fun e => e.1 = u), F x =
        scoreGet scores u /
          (((buildGraph es).reference_count u : Nat) : ℚ) := by
      intro x hx
      have hx1 : x.1 = u := of_decide_eq_true (List.mem_filter.1 hx).2
      rw [hF]
      simp only [pagerankOutCounts]
      rw [hx1, outGet_map _ _ _ hu]
    rw [sum_map_const_on _ _ _ hconst]
    have hlen : (es.filter (fun e => e.1 = u)).length =
        (buildGraph es).reference_count u := by
      have h := refs_buildGraph es u
      have h2 : ((buildGraph es).get_references u).length =
          ((es.filter (fun e => e.1 = u)).map (fun e => e.2)).length := by
        rw [h]
      simpa [CitationGraph.get_references, CitationGraph.reference_count,
        List.length_map] using h2.symm
    rw [hlen]
    by_cases hz : 0 < (buildGraph es).reference_count u
    · rw [if_pos hz]
      have hnz : (((buildGraph es).reference_count u : Nat) : ℚ) ≠ 0 := by
        exact_mod_cast Nat.pos_iff_ne_zero.1 hz
      field_simp
    · rw [if_neg hz]
      rw [Nat.eq_zero_of_not_pos hz]
      simp
  simp only [scoreSum, pagerankStep]
  rw [map_snd_pair]
  simp only [hinner]
  rw [sum_affine]
  rw [mul_comm (((buildGraph es).nodes.length : Nat) : ℚ),
    div_mul_cancel₀ _ hNQ]
  rw [sum_fiber_snd _ hnd F es hcov2]
  rw [← sum_fiber_fst _ hnd F es hcov1]
  rw [List.map_congr_left hpoint]
  rw [sum_ite_filter']
  rfl

/-- C3 witness: the amended identity applied to the concrete
single-edge graph at the uniform initial scores. -/
theorem C3_pagerank_mass_amended_witness :
    scoreSum (pagerankStep (buildGraph [(1, 2)]) (85/100)
        (pagerankInitial prGraph)) =
      (1 - 85/100) + (85/100) *
        danglingFreeMass (buildGraph [(1, 2)]) (pagerankInitial prGraph) :=
  C3_pagerank_mass_amended [(1, 2)] (by decide) (85/100)
    (pagerankInitial prGraph)

/-! ## C7 — amended: papers are selected in ascending id order -/

/-- Keys of a multimap push. -/
theorem keys_assocPush {β : Type} (m : List (Uuid × List β)) (k : Uuid)
    (v : β) :
    (assocPush m k v).map (fun p => p.1) =
      if k ∈ m.map (fun p => p.1) then m.map (fun p => p.1)
      else m.map (fun p => p.1) ++ [k] := by
  induction m with
  | nil => simp [assocPush]
  | cons hd tl ih =>
      obtain ⟨k0, vs⟩ := hd
      by_cases h : k0 = k
      · simp [assocPush, h]
      · simp only [assocPush, if_neg h, List.map_cons, ih]
        by_cases hm : k ∈ tl.map (fun p => p.1) <;>
          simp [hm, (show ¬(k = k0) from fun hh => h hh.symm)]

theorem keys_mem_groupFold (l : List ChunkInput) :
    ∀ (m : List (Uuid × List ChunkInput)) (x : Uuid),
      (x ∈ (l.foldl (fun m c => assocPush m c.paper_id c) m).map
          (fun p => p.1)) ↔
        x ∈ m.map (fun p => p.1) ∨ x ∈ l.map (fun c => c.paper_id) := by
  induction l with
  | nil => intro m x; simp
  | cons c rest ih =>
      intro m x
      rw [List.foldl_cons, ih]
      rw [keys_assocPush]
      by_cases hm : c.paper_id ∈ m.map (fun p => p.1)
      · rw [if_pos hm]
        simp only [List.map_cons, List.mem_cons]
        constructor
        · rintro (h | h)
          · exact Or.inl h
          · exact Or.inr (Or.inr h)
        · rintro (h | h | h)
          · exact Or.inl h
          · exact Or.inl (h ▸ hm)
          · exact Or.inr h
      · rw [if_neg hm]
        simp only [List.mem_append, List.mem_singleton, List.map_cons,
          List.mem_cons]
        tauto

theorem keys_sorted_groupFold (l : List ChunkInput) :
    ∀ (m : List (Uuid × List ChunkInput)),
      (m.map (fun p => p.1)).Sorted (fun a b => a < b) →
      (∀ c ∈ l, ∀ k ∈ m.map (fun p => p.1), k ≤ c.paper_id) →
      l.Sorted (fun a b => a.paper_id ≤ b.paper_id) →
      ((l.foldl (fun m c => assocPush m c.paper_id c) m).map
        (fun p => p.1)).Sorted (fun a b => a < b) := by
  induction l with
  | nil => intro m hs _ _; exact hs
  | cons c rest ih =>
      intro m hs hb hl
      rw [List.foldl_cons]
      have hrest : ∀ x ∈ rest, c.paper_id ≤ x.paper_id :=
        fun x hx => List.rel_of_sorted_cons hl x hx
      by_cases hm : c.paper_id ∈ m.map (fun p => p.1)
      · refine ih _ ?_ ?_ hl.of_cons
        · rw [keys_assocPush, if_pos hm]; exact hs
        · intro x hx k hk
          rw [keys_assocPush, if_pos hm] at hk
          exact le_trans (hb c (List.mem_cons_self _ _) k hk) (hrest x hx)
      · refine ih _ ?_ ?_ hl.of_cons
        · rw [keys_assocPush, if_neg hm]
          rw [List.Sorted, List.pairwise_append]
          refine ⟨hs, List.pairwise_singleton _ _, ?_⟩
          intro a ha b hb2
          rw [List.mem_singleton] at hb2
          subst hb2
          have hle := hb c (List.mem_cons_self _ _) a ha
          exact lt_of_le_of_ne hle (fun he => hm (he ▸ ha))
        · intro x hx k hk
          rw [keys_assocPush, if_neg hm, List.mem_append,
            List.mem_singleton] at hk
          rcases hk with hk | rfl
          · exact le_trans (hb c (List.mem_cons_self _ _) k hk) (hrest x hx)
          · exact hrest x hx

theorem stitchLoop_papers (cfg : ContextStitcherConfig) :
    ∀ (groups : List (Uuid × List ChunkInput)) (ws : List ContextWindow)
      (total : Nat),
      ∃ k, (stitchLoop cfg groups ws total).map (fun w => w.paper_id) =
        ws.map (fun w => w.paper_id) ++ (groups.map (fun p => p.1)).take k := by
  intro groups
  induction groups with
  | nil => intro ws total; exact ⟨0, by simp [stitchLoop]⟩
  | cons gr rest ih =>
      intro ws total
      obtain ⟨pid, pcs⟩ := gr
      rw [stitchLoop]
      by_cases h1 : cfg.max_windows ≤ ws.length
      · rw [if_pos h1]; exact ⟨0, by simp⟩
      · rw [if_neg h1]
        by_cases h2 : cfg.max_tokens <
            total + (createWindow cfg pid pcs).token_count
        · rw [if_pos h2]
          by_cases h3 : 500 < cfg.max_tokens - total
          · rw [if_pos h3]
            refine ⟨1, ?_⟩
            simp [trimWindow, createWindow]
          · rw [if_neg h3]; exact ⟨0, by simp⟩
        · rw [if_neg h2]
          obtain ⟨k, hk⟩ := ih (ws ++ [createWindow cfg pid pcs])
            (total + (createWindow cfg pid pcs).token_count)
          refine ⟨k + 1, ?_⟩
          rw [hk]
          simp [createWindow, List.take_succ_cons]

theorem mem_take_of_sorted (ks : List Uuid)
    (hs : ks.Sorted (fun a b => a < b)) :
    ∀ (k : Nat) (p q : Uuid), p ∈ ks.take k → q ∈ ks → q < p →
      q ∈ ks.take k := by
  induction ks with
  | nil => intro k p q hp; simp at hp
  | cons a rest ih =>
      intro k p q hp hq hlt
      cases k with
      | zero => simp at hp
      | succ k =>
          rw [List.take_succ_cons] at hp ⊢
          rcases List.mem_cons.mp hp with rfl | hp2
          · rcases List.mem_cons.mp hq with rfl | hq2
            · exact absurd hlt (lt_irrefl _)
            · exact absurd hlt
                (not_lt_of_gt (List.rel_of_sorted_cons hs q hq2))
          · rcases List.mem_cons.mp hq with rfl | hq2
            · exact List.mem_cons_self _ _
            · exact List.mem_cons_of_mem _
                (ih hs.of_cons k p q hp2 hq2 hlt)

/-- C7 amended: window-paper selection is monotone in ASCENDING
`paper_id`, not in input first-appearance order: `stitch` sorts the
surviving chunks by `(paper_id, chunk_index)`, groups them into an
(insertion-ordered model of a) hash map whose keys are then the distinct
paper ids in ascending order, and emits windows for a prefix of that key
list; hence if paper `p` received a window, so did every surviving paper
`q < p`. -/
theorem C7_stitch_paper_order_amended (cfg : ContextStitcherConfig)
    (chunks : List ChunkInput) (p q : Uuid)
    (hp : p ∈ (stitchWindows cfg chunks).map (fun w => w.paper_id))
    (hq : q ∈ (chunks.filter
        (fun c => cfg.min_chunk_score ≤ c.score)).map (fun c => c.paper_id))
    (hlt : q < p) :
    q ∈ (stitchWindows cfg chunks).map (fun w => w.paper_id) := by
  simp only [stitchWindows] at hp ⊢
  set filtered := chunks.filter (fun c => cfg.min_chunk_score ≤ c.score)
    with hfil
  set srt := filtered.insertionSort chunkLexLE with hsrt
  set groups := srt.foldl (fun m c => assocPush m c.paper_id c) [] with hgr
  set loopOut := stitchLoop cfg groups [] 0 with hlo
  have hperm : List.Perm
      ((loopOut.insertionSort windowGE).map (fun w => w.paper_id))
      (loopOut.map (fun w => w.paper_id)) :=
    (List.perm_insertionSort windowGE loopOut).map _
  rw [hperm.mem_iff] at hp ⊢
  obtain ⟨k, hk⟩ := stitchLoop_papers cfg groups [] 0
  rw [← hlo] at hk
  rw [hk] at hp ⊢
  simp only [List.map_nil, List.nil_append] at hp ⊢
  have hsorted : (groups.map (fun p => p.1)).Sorted (fun a b => a < b) := by
    refine keys_sorted_groupFold srt [] (by simp) (by simp) ?_
    have := List.sorted_insertionSort chunkLexLE filtered
    rw [← hsrt] at this
    exact this.imp (fun h => by
      rcases h with h | ⟨h, _⟩
      · exact le_of_lt h
      · exact le_of_eq h)
  have hqkeys : q ∈ groups.map (fun p => p.1) := by
    rw [hgr, keys_mem_groupFold]
    right
    have hpm : List.Perm (srt.map (fun c => c.paper_id))
        (filtered.map (fun c => c.paper_id)) :=
      (List.perm_insertionSort chunkLexLE filtered).map _
    rw [hpm.mem_iff]
    exact hq
  exact mem_take_of_sorted _ hsorted k p q hp hqkeys hlt


set_option maxRecDepth 20000 in
/-- C7 witness: the amended theorem applied at a concrete input where
both papers receive windows. -/
theorem C7_stitch_paper_order_amended_witness :
    (1 : Uuid) ∈ (stitchWindows ContextStitcherConfig.default
      [chunkP2, chunkP1]).map (fun w => w.paper_id) := by
  refine C7_stitch_paper_order_amended ContextStitcherConfig.default
    [chunkP2, chunkP1] 2 1 ?_ ?_ (by norm_num)
  · norm_num [stitchWindows, stitchLoop, createWindow, trimWindow,
      stitchChunks, estimateTokens, strByteLen,
      ContextStitcherConfig.default, chunkP1, chunkP2, assocPush,
      List.insertionSort, List.orderedInsert, chunkLexLE, chunkIdxLE,
      windowGE]
  · norm_num [ContextStitcherConfig.default, chunkP1, chunkP2]

/-! ## C1 — amended: RRF fusion output properties -/

/-- Invariant of `chunk_map` entries: stored ranks are 1-based and at
least one rank is present. -/
def EntryOk (e : Uuid × FuseEntry) : Prop :=
  (∀ r, e.2.2.1 = some r → 1 ≤ r) ∧
  (∀ r, e.2.2.2 = some r → 1 ≤ r) ∧
  (e.2.2.1.isSome ∨ e.2.2.2.isSome)

theorem mapInsert_ok (m : List (Uuid × FuseEntry)) (key : Uuid)
    (v : FuseEntry) (hm : ∀ y ∈ m, EntryOk y) (hv : EntryOk (key, v)) :
    ∀ x ∈ mapInsert m key v, EntryOk x := by
  induction m with
  | nil =>
      intro x hx
      rw [mapInsert] at hx
      exact (List.mem_singleton.1 hx) ▸ hv
  | cons hd tl ih =>
      intro x hx
      rw [mapInsert] at hx
      by_cases h : hd.1 = key
      · rw [if_pos h] at hx
        rcases List.mem_cons.mp hx with rfl | hx2
        · exact (h ▸ hv)
        · exact hm x (List.mem_cons_of_mem _ hx2)
      · rw [if_neg h] at hx
        rcases List.mem_cons.mp hx with rfl | hx2
        · exact hm _ (List.mem_cons_self _ _)
        · exact ih (fun y hy => hm y (List.mem_cons_of_mem _ hy)) x hx2

theorem mapUpdateBm25_ok (m : List (Uuid × FuseEntry)) (key : Uuid)
    (rank : Nat) (c : RetrievedChunk) (hm : ∀ y ∈ m, EntryOk y)
    (hr : 1 ≤ rank) :
    ∀ x ∈ mapUpdateBm25 m key rank c, EntryOk x := by
  induction m with
  | nil =>
      intro x hx
      rw [mapUpdateBm25] at hx
      simp at hx
      rw [hx]
      exact ⟨fun r hrr => by simp at hrr,
        fun r hrr => by simp at hrr; rw [← hrr]; exact hr,
        Or.inr rfl⟩
  | cons hd tl ih =>
      intro x hx
      obtain ⟨k0, c0, vr0, br0⟩ := hd
      rw [mapUpdateBm25] at hx
      by_cases h : k0 = key
      · rw [if_pos h] at hx
        rcases List.mem_cons.mp hx with rfl | hx2
        · have hold := hm (k0, (c0, vr0, br0)) (List.mem_cons_self _ _)
          refine ⟨hold.1, ?_, Or.inr rfl⟩
          intro r hrr
          simp at hrr
          rw [← hrr]
          exact hr
        · exact hm x (List.mem_cons_of_mem _ hx2)
      · rw [if_neg h] at hx
        rcases List.mem_cons.mp hx with rfl | hx2
        · exact hm _ (List.mem_cons_self _ _)
        · exact ih (fun y hy => hm y (List.mem_cons_of_mem _ hy)) x hx2

theorem vectorPhase_ok (l : List RetrievedChunk) :
    ∀ (r0 : Nat) (m : List (Uuid × FuseEntry)), (∀ y ∈ m, EntryOk y) →
      ∀ x ∈ vectorPhase r0 l m, EntryOk x := by
  induction l with
  | nil => intro r0 m hm x hx; rw [vectorPhase] at hx; exact hm x hx
  | cons c rest ih =>
      intro r0 m hm x hx
      rw [vectorPhase] at hx
      refine ih (r0 + 1) _ ?_ x hx
      refine mapInsert_ok m c.chunk_id _ hm ?_
      exact ⟨fun r hrr => by simp at hrr; omega,
        fun r hrr => by simp at hrr, Or.inl rfl⟩

theorem bm25Phase_ok (l : List RetrievedChunk) :
    ∀ (r0 : Nat) (m : List (Uuid × FuseEntry)), (∀ y ∈ m, EntryOk y) →
      ∀ x ∈ bm25Phase r0 l m, EntryOk x := by
  induction l with
  | nil => intro r0 m hm x hx; rw [bm25Phase] at hx; exact hm x hx
  | cons c rest ih =>
      intro r0 m hm x hx
      rw [bm25Phase] at hx
      refine ih (r0 + 1) _ ?_ x hx
      exact mapUpdateBm25_ok m c.chunk_id (r0 + 1) c hm (by omega)

theorem buildChunkMap_ok (v b : List RetrievedChunk) :
    ∀ x ∈ buildChunkMap v b, EntryOk x := by
  rw [buildChunkMap]
  exact bm25Phase_ok b 0 _ (vectorPhase_ok v 0 [] (by simp))

theorem entryToResult_pos (fus : RRFusion) (e : Uuid × FuseEntry)
    (he : EntryOk e) (hk : 0 < fus.k) (hv : 0 < fus.vector_weight)
    (hb : 0 < fus.bm25_weight) :
    0 < (entryToResult fus e).rrf_score := by
  obtain ⟨h1, h2, h3⟩ := he
  simp only [entryToResult]
  have hvp : 0 ≤ (match e.2.2.1 with
      | some r => fus.vector_weight / (fus.k + (r : ℚ))
      | none => 0) := by
    match hvr : e.2.2.1 with
    | some r =>
        have := h1 r hvr
        positivity
    | none => simp
  have hbp : 0 ≤ (match e.2.2.2 with
      | some r => fus.bm25_weight / (fus.k + (r : ℚ))
      | none => 0) := by
    match hbr : e.2.2.2 with
    | some r =>
        have := h2 r hbr
        positivity
    | none => simp
  rcases h3 with hs | hs
  · obtain ⟨r, hrr⟩ := Option.isSome_iff_exists.1 hs
    rw [hrr] at hvp ⊢
    have h1r := h1 r hrr
    have : 0 < fus.vector_weight / (fus.k + (r : ℚ)) := by positivity
    exact add_pos_of_pos_of_nonneg this hbp
  · obtain ⟨r, hrr⟩ := Option.isSome_iff_exists.1 hs
    rw [hrr] at hbp ⊢
    have h2r := h2 r hrr
    have : 0 < fus.bm25_weight / (fus.k + (r : ℚ)) := by positivity
    exact add_pos_of_nonneg_of_pos hvp this

/-- C1 amended: for positive weights and `k > 0`, `fuse` emits results
whose (normalized) scores lie in `(0, 1]`, equal to the chunk score,
tagged `Hybrid`, in DESCENDING score order, at most `limit` of them,
with the first result's score exactly `1`; ties carry NO
`(paper_id, chunk_index)` tie-break — they keep map-iteration order
(insertion order in this model; see the counterexample). -/
theorem C1_fuse_amended (fus : RRFusion) (v b : List RetrievedChunk)
    (limit : Nat) (hk : 0 < fus.k) (hv : 0 < fus.vector_weight)
    (hb : 0 < fus.bm25_weight) :
    (∀ r ∈ fus.fuse v b limit,
        0 < r.rrf_score ∧ r.rrf_score ≤ 1 ∧ r.chunk.score = r.rrf_score ∧
        r.chunk.retrieval_mode = .Hybrid) ∧
    (fus.fuse v b limit).Sorted fusionGE ∧
    (fus.fuse v b limit).length ≤ limit ∧
    (∀ r0, (fus.fuse v b limit).head? = some r0 → r0.rrf_score = 1) := by
  have hfuse : fus.fuse v b limit =
      normalizeResults ((((buildChunkMap v b).map
        (entryToResult fus)).insertionSort fusionGE).take limit) := rfl
  set L := (((buildChunkMap v b).map
    (entryToResult fus)).insertionSort fusionGE).take limit with hL
  have hLmem : ∀ r ∈ L, ∃ e ∈ buildChunkMap v b, r = entryToResult fus e := by
    intro r hr
    have hr2 : r ∈ (buildChunkMap v b).map (entryToResult fus) := by
      have hta := List.take_subset limit
        (((buildChunkMap v b).map (entryToResult fus)).insertionSort fusionGE)
      have := hta (hL ▸ hr)
      rw [List.mem_insertionSort] at this
      exact this
    obtain ⟨e, he, hre⟩ := List.mem_map.1 hr2
    exact ⟨e, he, hre.symm⟩
  have hLpos : ∀ r ∈ L, 0 < r.rrf_score := by
    intro r hr
    obtain ⟨e, he, rfl⟩ := hLmem r hr
    exact entryToResult_pos fus e (buildChunkMap_ok v b e he) hk hv hb
  have hLfields : ∀ r ∈ L, r.chunk.score = r.rrf_score ∧
      r.chunk.retrieval_mode = .Hybrid := by
    intro r hr
    obtain ⟨e, he, rfl⟩ := hLmem r hr
    exact ⟨rfl, rfl⟩
  have hLsorted : L.Sorted fusionGE := by
    rw [hL]
    exact List.Pairwise.sublist (List.take_sublist _ _)
      (List.sorted_insertionSort fusionGE _)
  have hLlen : L.length ≤ limit := by
    rw [hL]
    exact List.length_take_le _ _
  cases hcase : L with
  | nil =>
      rw [hfuse, hcase]
      refine ⟨by simp [normalizeResults], by simp [normalizeResults],
        by simp [normalizeResults], by simp [normalizeResults]⟩
  | cons hd tl =>
      have hm : 0 < hd.rrf_score :=
        hLpos hd (by rw [hcase]; exact List.mem_cons_self _ _)
      have hnorm : normalizeResults L = L.map (fun r =>
          { r with
            chunk := { r.chunk with score := r.rrf_score / hd.rrf_score }
            rrf_score := r.rrf_score / hd.rrf_score }) := by
        rw [hcase]
        simp only [normalizeResults, List.head?_cons]
        rw [if_pos hm]
      have hmax : ∀ r ∈ L, r.rrf_score ≤ hd.rrf_score := by
        intro r hr
        rw [hcase] at hr
        rcases List.mem_cons.mp hr with rfl | hr2
        · exact le_refl _
        · have hs := hLsorted
          rw [hcase] at hs
          exact List.rel_of_sorted_cons hs r hr2
      refine ⟨?_, ?_, ?_, ?_⟩
      · intro r' hr'
        rw [hfuse, hnorm] at hr'
        obtain ⟨r, hr, rfl⟩ := List.mem_map.1 hr'
        have hpos := hLpos r hr
        have hle := hmax r hr
        have hfields := hLfields r hr
        exact ⟨div_pos hpos hm, (div_le_one hm).2 hle, rfl, hfields.2⟩
      · rw [hfuse, hnorm]
        rw [List.Sorted, List.pairwise_map]
        refine hLsorted.imp ?_
        intro a b hab
        show b.rrf_score / hd.rrf_score ≤ a.rrf_score / hd.rrf_score
        exact div_le_div_of_nonneg_right hab hm.le
      · rw [hfuse, hnorm, List.length_map]
        exact hLlen
      · intro r0 hr0
        rw [hfuse, hnorm, hcase] at hr0
        simp only [List.map_cons, List.head?_cons, Option.some.injEq] at hr0
        rw [← hr0]
        show hd.rrf_score / hd.rrf_score = 1
        exact div_self (ne_of_gt hm)

/-- C1 witness: the amended theorem applied at the default fusion
parameters and concrete one-element inputs. -/
theorem C1_fuse_amended_witness :
    (∀ r ∈ RRFusion.default.fuse [fuseX] [fuseY] 10,
        0 < r.rrf_score ∧ r.rrf_score ≤ 1 ∧ r.chunk.score = r.rrf_score ∧
        r.chunk.retrieval_mode = .Hybrid) ∧
    (RRFusion.default.fuse [fuseX] [fuseY] 10).Sorted fusionGE ∧
    (RRFusion.default.fuse [fuseX] [fuseY] 10).length ≤ 10 ∧
    (∀ r0, (RRFusion.default.fuse [fuseX] [fuseY] 10).head? = some r0 →
      r0.rrf_score = 1) :=
  C1_fuse_amended RRFusion.default [fuseX] [fuseY] 10
    (by norm_num [RRFusion.default]) (by norm_num [RRFusion.default])
    (by norm_num [RRFusion.default])
